import Mathlib

/-!
Verification development for the `di-asset-extractor` repository.

Bytes are modelled as natural numbers (Python `bytes` elements are in
`[0, 256)`); byte strings as `List Nat`.  Python operations that can raise
an exception are modelled in `Except Unit`; an `.error ()` value marks the
exact program point where the Python code would raise.  File reads are
modelled on an in-memory byte list: `f.read(n)` returns
`(data.drop pos).take n` and advances the cursor by the number of bytes
actually obtained, exactly as a Python file object does.
-/

namespace DIAsset

/-! ## §1  LZ4 block decoder (src/di_asset_extractor/mpk.py, decompress_lz4_block)

The Python decoder keeps `src_pos` / `dst_pos` cursors over the input and a
preallocated zero-filled output `bytearray(uncompressed_size)`, returning
`result[:dst_pos]`.  Output positions are written strictly left to right, and
every read of `result` lands strictly below `dst_pos`, so the output buffer is
modelled as the grown prefix (a plain list); `List.getD _ _ 0` agrees with the
zero-initialized bytearray on not-yet-written positions.  The main `while`
loop consumes at least one source byte per iteration, so it is modelled with
a fuel counter primed with `data.length + 1`, which the loop can never
exhaust.  The single unguarded indexing operation of the Python code (the
read `result[match_pos + (i % offset)]`) is modelled with an explicit bounds
check whose failure is `.error ()`. -/

/-- Extension-length reader: mirrors the Python
`while src_pos < len(data): extra = data[src_pos]; src_pos += 1;
acc += extra; if extra != 255: break` loop.  Returns the accumulated length
and the new source position.  The loop advances `src` by one per step, so
fuel `data.length` is always sufficient. -/
def readExt (data : List Nat) : Nat → Nat → Nat → Nat × Nat
  | 0, src, acc => (acc, src)
  | fuel+1, src, acc =>
    if src < data.length then
      if data.getD src 0 = 255 then readExt data fuel (src+1) (acc + data.getD src 0)
      else (acc + data.getD src 0, src + 1)
    else (acc, src)

/-- Match-copy loop: mirrors the Python
`for i in range(match_length): if dst_pos >= uncompressed_size: break;
result[dst_pos] = result[match_pos + (i % offset)]; dst_pos += 1`.
The read `result[match_pos + (i % offset)]` is the one indexing operation of
the decoder that Python does not guard; its bounds check (against the
bytearray length `usize`) is explicit here and fails to `.error ()`. -/
def lzCopyMatch (usize matchPos offset : Nat) : Nat → Nat → List Nat → Except Unit (List Nat)
  | _, 0, result => .ok result
  | i, rem+1, result =>
    if usize ≤ result.length then .ok result
    else if matchPos + i % offset < usize then
      lzCopyMatch usize matchPos offset (i+1) rem
        (result ++ [result.getD (matchPos + i % offset) 0])
    else .error ()

/-- One iteration of the main `while` loop of `decompress_lz4_block`.
`.inl r` means the loop breaks (or its condition fails) with output `r`;
`.inr (src, result)` means the loop continues with the new cursors. -/
def lz4Step (data : List Nat) (usize : Nat) (src : Nat) (result : List Nat) :
    Except Unit ((List Nat) ⊕ (Nat × List Nat)) :=
  if src < data.length then
    if result.length < usize then
      -- token byte; literal length is the high nibble
      let token := data.getD src 0
      let lit0 := (token / 16) % 16
      let p1 := if lit0 = 15 then readExt data data.length (src+1) lit0 else (lit0, src+1)
      -- copy literals
      let copyLen := min p1.1 (min (data.length - p1.2) (usize - result.length))
      let result1 := result ++ List.take copyLen (List.drop p1.2 data)
      let src3 := p1.2 + copyLen
      if usize ≤ result1.length ∨ data.length < src3 + 2 then .ok (.inl result1)
      else
        -- match offset, little endian
        let offset := data.getD src3 0 + 256 * data.getD (src3+1) 0
        if offset = 0 then .ok (.inl result1)
        else
          -- match length: low nibble + 4, extended when it reads 19
          let p2 := if token % 16 + 4 = 19 then readExt data data.length (src3+2) 19
                    else (token % 16 + 4, src3+2)
          if result1.length < offset then .ok (.inl result1)
          else
            match lzCopyMatch usize (result1.length - offset) offset 0 p2.1 result1 with
            | .error e => .error e
            | .ok result2 => .ok (.inr (p2.2, result2))
    else .ok (.inl result)
  else .ok (.inl result)

/-- Main decoder loop of `decompress_lz4_block`.  One fuel unit per `while`
iteration; each iteration consumes at least the token byte, so the wrapper
fuel `data.length + 1` can never run out before the loop exits. -/
def lz4Loop (data : List Nat) (usize : Nat) : Nat → Nat → List Nat → Except Unit (List Nat)
  | 0, _, result => .ok result
  | fuel+1, src, result =>
    match lz4Step data usize src result with
    | .error e => .error e
    | .ok (.inl r) => .ok r
    | .ok (.inr (s, r)) => lz4Loop data usize fuel s r

/-- `decompress_lz4_block(data, uncompressed_size)` from mpk.py. -/
def decompress_lz4_block (data : List Nat) (usize : Nat) : Except Unit (List Nat) :=
  lz4Loop data usize (data.length + 1) 0 []

/-! ### Safety of the LZ4 decoder -/

theorem readExt_src_le (data : List Nat) :
    ∀ fuel src acc, src ≤ (readExt data fuel src acc).2 := by
  intro fuel
  induction fuel with
  | zero => intro src acc; simp [readExt]
  | succ n ih =>
    intro src acc
    rw [readExt]
    split
    · split
      · exact le_trans (Nat.le_succ src) (ih (src+1) (acc + data.getD src 0))
      · exact Nat.le_succ src
    · exact le_rfl

theorem lzCopyMatch_ok (usize matchPos offset : Nat)
    (hoff : 0 < offset) (hbound : matchPos + offset ≤ usize) :
    ∀ rem i result, result.length ≤ usize →
      ∃ out, lzCopyMatch usize matchPos offset i rem result = .ok out ∧ out.length ≤ usize := by
  intro rem
  induction rem with
  | zero => intro i result h; exact ⟨result, rfl, h⟩
  | succ n ih =>
    intro i result h
    rw [lzCopyMatch]
    by_cases hfull : usize ≤ result.length
    · exact ⟨result, by simp [hfull], h⟩
    · have hidx : matchPos + i % offset < usize :=
        lt_of_lt_of_le (Nat.add_lt_add_left (Nat.mod_lt i hoff) matchPos) hbound
      simp only [if_neg hfull, if_pos hidx]
      exact ih (i+1) _ (by simpa using Nat.lt_of_not_le hfull)

theorem lz4Step_ok (data : List Nat) (usize : Nat) (src : Nat) (result : List Nat)
    (h : result.length ≤ usize) :
    (∃ r, lz4Step data usize src result = .ok (.inl r) ∧ r.length ≤ usize) ∨
    (∃ s r, lz4Step data usize src result = .ok (.inr (s, r)) ∧ r.length ≤ usize ∧ src < s) := by
  rw [lz4Step]
  by_cases h1 : src < data.length
  · simp only [if_pos h1]
    by_cases h2 : result.length < usize
    · simp only [if_pos h2]
      set token := data.getD src 0 with htoken
      set p1 := if (token / 16) % 16 = 15 then readExt data data.length (src+1) ((token / 16) % 16)
                else ((token / 16) % 16, src+1) with hp1
      have hsrc2 : src < p1.2 := by
        rw [hp1]; split
        · exact lt_of_lt_of_le (Nat.lt_succ_self src) (readExt_src_le data _ _ _)
        · exact Nat.lt_succ_self src
      set copyLen := min p1.1 (min (data.length - p1.2) (usize - result.length)) with hcl
      set result1 := result ++ List.take copyLen (List.drop p1.2 data) with hr1
      have hr1len : result1.length ≤ usize := by
        rw [hr1]
        have hcl2 : copyLen ≤ usize - result.length := by
          rw [hcl]; exact le_trans (Nat.min_le_right _ _) (Nat.min_le_right _ _)
        have := List.length_take_le copyLen (List.drop p1.2 data)
        simp only [List.length_append]
        have : (List.take copyLen (List.drop p1.2 data)).length ≤ copyLen :=
          List.length_take_le _ _
        omega
      by_cases h3 : usize ≤ result1.length ∨ data.length < p1.2 + copyLen + 2
      · exact Or.inl ⟨result1, by simp only [if_pos h3], hr1len⟩
      · simp only [if_neg h3]
        set offset := data.getD (p1.2 + copyLen) 0 + 256 * data.getD (p1.2 + copyLen + 1) 0 with hof
        by_cases h4 : offset = 0
        · exact Or.inl ⟨result1, by simp only [if_pos h4], hr1len⟩
        · simp only [if_neg h4]
          set p2 := if token % 16 + 4 = 19 then readExt data data.length (p1.2 + copyLen + 2) 19
                    else (token % 16 + 4, p1.2 + copyLen + 2) with hp2
          have hsrc5 : src < p2.2 := by
            rw [hp2]; split
            · exact lt_of_lt_of_le (by omega) (readExt_src_le data _ _ _)
            · simp only []; omega
          by_cases h5 : result1.length < offset
          · exact Or.inl ⟨result1, by simp only [if_pos h5], hr1len⟩
          · simp only [if_neg h5]
            have hmp : (result1.length - offset) + offset ≤ usize := by omega
            obtain ⟨out, hout, houtlen⟩ :=
              lzCopyMatch_ok usize (result1.length - offset) offset
                (Nat.pos_of_ne_zero h4) hmp p2.1 0 result1 hr1len
            rw [hout]
            exact Or.inr ⟨p2.2, out, rfl, houtlen, hsrc5⟩
    · exact Or.inl ⟨result, by simp [if_neg h2], h⟩
  · exact Or.inl ⟨result, by simp [if_neg h1], h⟩

theorem lz4Loop_ok (data : List Nat) (usize : Nat) :
    ∀ fuel src result, result.length ≤ usize →
      ∃ out, lz4Loop data usize fuel src result = .ok out ∧ out.length ≤ usize := by
  intro fuel
  induction fuel with
  | zero => intro src result h; exact ⟨result, rfl, h⟩
  | succ n ih =>
    intro src result h
    rw [lz4Loop]
    rcases lz4Step_ok data usize src result h with ⟨r, hstep, hr⟩ | ⟨s, r, hstep, hr, _⟩
    · rw [hstep]; exact ⟨r, rfl, hr⟩
    · rw [hstep]; exact ih s r hr

/-- Claim C2: the LZ4 decoder is total — on every input byte string and every
`uncompressed_size` it succeeds (no Python exception: every indexing stays in
bounds, the only unguarded access being modelled by the `.error` branch of
`lzCopyMatch`) and produces at most `uncompressed_size` bytes. -/
theorem C2_lz4_total_and_bounded (data : List Nat) (usize : Nat) :
    ∃ out, decompress_lz4_block data usize = .ok out ∧ out.length ≤ usize :=
  lz4Loop_ok data usize (data.length + 1) 0 [] (by simp)

/-! ### Conforming LZ4 block encoders

A conforming LZ4 block encoder emits a list of sequences, each a literal run
followed by a match `(offset, match_length)`, the final sequence carrying
literals only.  `serSeq` is the standard LZ4 wire format for one sequence
(token byte with literal-length and match-length nibbles, 255-terminated
extension bytes, literals, little-endian 16-bit offset); `wfSeqs` states the
LZ4 block-format side conditions, and `decodeFrom` is the reference
decompression of a sequence list (standard LZ4 semantics: matches copy byte
by byte from `offset` positions back, so overlapping matches repeat). -/

/-- One LZ4 sequence: a literal run and an optional match `(offset, length)`. -/
abbrev LZSeq := List Nat × Option (Nat × Nat)

/-- Canonical extension-byte encoding of a length surplus `k`: a run of 255
bytes followed by one byte below 255, summing to `k`. -/
def extBytes (k : Nat) : List Nat := List.replicate (k / 255) 255 ++ [k % 255]

/-- Extension bytes for a literal run of length `L` (present when the token
nibble saturates at 15). -/
def litExt (L : Nat) : List Nat := if 15 ≤ L then extBytes (L - 15) else []

/-- Extension bytes for a match of length `mlen` (present when the token
nibble saturates, i.e. `mlen - 4 ≥ 15`). -/
def matchLenExt (mlen : Nat) : List Nat := if 19 ≤ mlen then extBytes (mlen - 19) else []

/-- Wire format of one LZ4 sequence. -/
def serSeq : LZSeq → List Nat
  | (lits, none) =>
      (16 * min lits.length 15) :: (litExt lits.length ++ lits)
  | (lits, some (off, mlen)) =>
      (16 * min lits.length 15 + min (mlen - 4) 15)
        :: (litExt lits.length ++ lits
            ++ off % 256 :: off / 256 :: matchLenExt mlen)

/-- Wire format of a whole sequence list (an LZ4 block). -/
def serializeSeqs : List LZSeq → List Nat
  | [] => []
  | s :: rest => serSeq s ++ serializeSeqs rest

/-- Reference LZ4 match copy: append, `n` times, the byte `off` positions
before the current end of the output (the buffer grows as it is read, which
is what makes overlapping matches repeat their pattern). -/
def matchExtend (out : List Nat) (off : Nat) : Nat → List Nat
  | 0 => out
  | n+1 => matchExtend (out ++ [out.getD (out.length - off) 0]) off n

/-- Reference decompression of a sequence list, standard LZ4 semantics. -/
def decodeFrom (out : List Nat) : List LZSeq → List Nat
  | [] => out
  | (lits, none) :: rest => decodeFrom (out ++ lits) rest
  | (lits, some (off, mlen)) :: rest => decodeFrom (matchExtend (out ++ lits) off mlen) rest

/-- LZ4 block-format side conditions for an encoded sequence list, relative to
the number of output bytes already produced: every sequence but the last has a
match with `1 ≤ offset ≤ bytes produced so far`, `offset < 2^16` and
`match_length ≥ 4`; the final sequence is literal-only. -/
def wfSeqs : Nat → List LZSeq → Bool
  | _, [] => false
  | _, (_, none) :: rest => rest.isEmpty
  | n, (lits, some (off, mlen)) :: rest =>
      decide (0 < off) && decide (off ≤ n + lits.length) && decide (off < 65536)
        && decide (4 ≤ mlen) && wfSeqs (n + lits.length + mlen) rest

/-! ### List indexing helpers -/

theorem getD_append_at (pre : List Nat) (x : Nat) (t : List Nat) :
    (pre ++ x :: t).getD pre.length 0 = x := by
  rw [List.getD_append_right pre (x :: t) 0 pre.length le_rfl]
  simp

/-! ### The decoder consumes extension bytes exactly -/

theorem readExt_replicate (post : List Nat) (r : Nat) (hr : r < 255) :
    ∀ n pre fuel acc, n + 1 ≤ fuel →
      readExt (pre ++ (List.replicate n 255 ++ r :: post)) fuel pre.length acc
        = (acc + (255 * n + r), pre.length + (n + 1)) := by
  intro n
  induction n with
  | zero =>
    intro pre fuel acc hf
    obtain ⟨f, rfl⟩ : ∃ f, fuel = f + 1 := ⟨fuel - 1, by omega⟩
    rw [readExt]
    have hlt : pre.length < (pre ++ (List.replicate 0 255 ++ r :: post)).length := by
      simp
    rw [if_pos hlt]
    have hg : (pre ++ (List.replicate 0 255 ++ r :: post)).getD pre.length 0 = r := by
      simpa using getD_append_at pre r post
    rw [hg, if_neg (by omega)]
    simp
  | succ n ih =>
    intro pre fuel acc hf
    obtain ⟨f, rfl⟩ : ∃ f, fuel = f + 1 := ⟨fuel - 1, by omega⟩
    have hsplit : pre ++ (List.replicate (n+1) 255 ++ r :: post)
        = pre ++ 255 :: (List.replicate n 255 ++ r :: post) := by
      simp [List.replicate_succ]
    rw [readExt, hsplit]
    have hlt : pre.length < (pre ++ 255 :: (List.replicate n 255 ++ r :: post)).length := by
      simp
    rw [if_pos hlt, getD_append_at pre 255 _, if_pos rfl]
    have hre : pre ++ 255 :: (List.replicate n 255 ++ r :: post)
        = (pre ++ [255]) ++ (List.replicate n 255 ++ r :: post) := by simp
    have hlen : pre.length + 1 = (pre ++ [255]).length := by simp
    rw [hre, hlen, ih (pre ++ [255]) f (acc + 255) (by omega)]
    simp only [Prod.mk.injEq, List.length_append, List.length_cons, List.length_nil]
    omega

theorem readExt_extBytes (post : List Nat) (k : Nat) (pre : List Nat) (fuel acc : Nat)
    (hf : k / 255 + 1 ≤ fuel) :
    readExt (pre ++ (extBytes k ++ post)) fuel pre.length acc
      = (acc + k, pre.length + (k / 255 + 1)) := by
  have h1 : extBytes k ++ post = List.replicate (k / 255) 255 ++ (k % 255) :: post := by
    simp [extBytes]
  rw [h1, readExt_replicate post (k % 255) (Nat.mod_lt k (by omega)) (k / 255) pre fuel acc hf]
  rw [Nat.div_add_mod k 255]

/-! ### Overlapping match copies produce the periodic pattern

The decoder copies matches with the modular read
`result[match_pos + (i % offset)]`; the reference `matchExtend` copies byte
by byte from `offset` positions behind a growing buffer.  Over a buffer whose
last `offset` bytes are fixed, both produce the periodic extension of those
bytes, which is proved here. -/

theorem matchExtend_length (off : Nat) : ∀ n out, (matchExtend out off n).length = out.length + n := by
  intro n
  induction n with
  | zero => intro out; rfl
  | succ n ih =>
    intro out
    rw [matchExtend, ih]
    simp
    omega

theorem matchExtend_prefix (off : Nat) : ∀ n out, ∃ t, matchExtend out off n = out ++ t := by
  intro n
  induction n with
  | zero => intro out; exact ⟨[], by simp [matchExtend]⟩
  | succ n ih =>
    intro out
    obtain ⟨t, ht⟩ := ih (out ++ [out.getD (out.length - off) 0])
    exact ⟨[out.getD (out.length - off) 0] ++ t, by rw [matchExtend, ht]; simp⟩

theorem decodeFrom_prefix : ∀ seqs out, ∃ t, decodeFrom out seqs = out ++ t := by
  intro seqs
  induction seqs with
  | nil => intro out; exact ⟨[], by simp [decodeFrom]⟩
  | cons s rest ih =>
    intro out
    obtain ⟨lits, m⟩ := s
    cases m with
    | none =>
      obtain ⟨t, ht⟩ := ih (out ++ lits)
      exact ⟨lits ++ t, by rw [decodeFrom, ht]; simp⟩
    | some p =>
      obtain ⟨off, mlen⟩ := p
      obtain ⟨t1, ht1⟩ := matchExtend_prefix off mlen (out ++ lits)
      obtain ⟨t, ht⟩ := ih (matchExtend (out ++ lits) off mlen)
      exact ⟨lits ++ t1 ++ t, by rw [decodeFrom, ht, ht1]; simp⟩

theorem getD_map_range (f : Nat → Nat) (k j : Nat) (h : j < k) :
    ((List.range k).map f).getD j 0 = f j := by
  rw [List.getD_eq_getElem _ _ (by simpa using h)]
  simp

theorem matchExtend_periodic (r0 : List Nat) (off : Nat) (hoff : 0 < off)
    (hle : off ≤ r0.length) :
    ∀ n k, matchExtend (r0 ++ (List.range k).map (fun j => r0.getD (r0.length - off + j % off) 0)) off n
      = r0 ++ (List.range (k + n)).map (fun j => r0.getD (r0.length - off + j % off) 0) := by
  intro n
  induction n with
  | zero => intro k; rfl
  | succ n ih =>
    intro k
    rw [matchExtend]
    set f : Nat → Nat := fun j => r0.getD (r0.length - off + j % off) 0 with hf
    have hlenr : (r0 ++ (List.range k).map f).length = r0.length + k := by simp
    have hbyte : (r0 ++ (List.range k).map f).getD
        ((r0 ++ (List.range k).map f).length - off) 0 = f k := by
      rw [hlenr]
      rcases Nat.lt_or_ge k off with hk | hk
      · have hidx : r0.length + k - off < r0.length := by omega
        rw [List.getD_append _ _ _ _ hidx, hf]
        have : r0.length + k - off = r0.length - off + k % off := by
          rw [Nat.mod_eq_of_lt hk]; omega
        rw [this]
      · have hidx : r0.length ≤ r0.length + k - off := by omega
        rw [List.getD_append_right _ _ _ _ hidx]
        have : r0.length + k - off - r0.length = k - off := by omega
        rw [this, getD_map_range f k (k - off) (by omega), hf]
        have : (k - off) % off = k % off := (Nat.mod_eq_sub_mod hk).symm
        simp only [this]
    rw [hbyte]
    have happ : r0 ++ (List.range k).map f ++ [f k]
        = r0 ++ (List.range (k+1)).map f := by
      rw [List.range_succ]
      simp
    rw [happ, ih (k+1)]
    have : k + 1 + n = k + (n + 1) := by omega
    rw [this]

theorem matchExtend_eq_periodic (r0 : List Nat) (off : Nat) (hoff : 0 < off)
    (hle : off ≤ r0.length) (n : Nat) :
    matchExtend r0 off n
      = r0 ++ (List.range n).map (fun j => r0.getD (r0.length - off + j % off) 0) := by
  have h := matchExtend_periodic r0 off hoff hle n 0
  simpa using h

theorem lzCopyMatch_exact (usize : Nat) (r0 : List Nat) (off : Nat) (hoff : 0 < off)
    (hle : off ≤ r0.length) (mlen : Nat) (husize : r0.length + mlen ≤ usize) :
    ∀ rem i, i + rem = mlen →
      lzCopyMatch usize (r0.length - off) off i rem
          (r0 ++ (List.range i).map (fun j => r0.getD (r0.length - off + j % off) 0))
        = .ok (r0 ++ (List.range mlen).map (fun j => r0.getD (r0.length - off + j % off) 0)) := by
  intro rem
  induction rem with
  | zero =>
    intro i hi
    have : i = mlen := by omega
    subst this
    rfl
  | succ n ih =>
    intro i hi
    set f : Nat → Nat := fun j => r0.getD (r0.length - off + j % off) 0 with hf
    rw [lzCopyMatch]
    have hlenr : (r0 ++ (List.range i).map f).length = r0.length + i := by simp
    have hnotfull : ¬ usize ≤ (r0 ++ (List.range i).map f).length := by
      rw [hlenr]; omega
    rw [if_neg hnotfull]
    have hidx : r0.length - off + i % off < usize := by
      have := Nat.mod_lt i hoff
      omega
    rw [if_pos hidx]
    have hbyte : (r0 ++ (List.range i).map f).getD (r0.length - off + i % off) 0 = f i := by
      have hlt : r0.length - off + i % off < r0.length := by
        have := Nat.mod_lt i hoff
        omega
      rw [List.getD_append _ _ _ _ hlt, hf]
    rw [hbyte]
    have happ : r0 ++ (List.range i).map f ++ [f i] = r0 ++ (List.range (i+1)).map f := by
      rw [List.range_succ]; simp
    rw [happ]
    exact ih (i+1) (by omega)

/-! ### Token and header consumption lemmas -/

theorem extBytes_length (k : Nat) : (extBytes k).length = k / 255 + 1 := by
  simp [extBytes]

theorem litExt_length (L : Nat) (h : 15 ≤ L) : (litExt L).length = (L - 15) / 255 + 1 := by
  rw [litExt, if_pos h, extBytes_length]

/-- The decoder reads the literal length of a sequence exactly: it resolves
the `p1` pair of `lz4Step` to the literal-run length and the position just
past the token and its extension bytes. -/
theorem consumeLit (pre : List Nat) (tok L : Nat) (rest : List Nat) (fuel : Nat)
    (htok : tok / 16 % 16 = min L 15)
    (hfuel : (L - 15) / 255 + 1 ≤ fuel) :
    (if tok / 16 % 16 = 15
       then readExt (pre ++ tok :: (litExt L ++ rest)) fuel (pre.length + 1) (tok / 16 % 16)
       else (tok / 16 % 16, pre.length + 1))
    = (L, pre.length + 1 + (litExt L).length) := by
  rcases le_or_lt 15 L with h15 | h15
  · have hmin : min L 15 = 15 := Nat.min_eq_right h15
    have hlx : litExt L = extBytes (L - 15) := by rw [litExt, if_pos h15]
    rw [if_pos (by rw [htok, hmin]), htok, hmin]
    have hre : pre ++ tok :: (litExt L ++ rest)
        = (pre ++ [tok]) ++ (extBytes (L - 15) ++ rest) := by rw [hlx]; simp
    have hpos : pre.length + 1 = (pre ++ [tok]).length := by simp
    rw [hre, hpos, readExt_extBytes rest (L - 15) (pre ++ [tok]) fuel 15 hfuel]
    simp only [Prod.mk.injEq, List.length_append, List.length_cons, List.length_nil]
    constructor
    · omega
    · rw [hlx, extBytes_length]
  · have hmin : min L 15 = L := Nat.min_eq_left (le_of_lt h15)
    rw [if_neg (by rw [htok, hmin]; omega), htok, hmin]
    have hlx : litExt L = [] := by rw [litExt, if_neg (by omega)]
    rw [hlx]
    simp

/-- The decoder reads the match length of a sequence exactly: it resolves the
`p2` pair of `lz4Step` to the match length and the position just past the
match-length extension bytes. -/
theorem consumeMatch (pre2 : List Nat) (tok mlen : Nat) (rest : List Nat) (fuel : Nat)
    (hm : 4 ≤ mlen) (htokm : tok % 16 = min (mlen - 4) 15)
    (hfuel : (mlen - 19) / 255 + 1 ≤ fuel) :
    (if tok % 16 + 4 = 19
       then readExt (pre2 ++ (matchLenExt mlen ++ rest)) fuel pre2.length 19
       else (tok % 16 + 4, pre2.length))
    = (mlen, pre2.length + (matchLenExt mlen).length) := by
  rcases le_or_lt 19 mlen with h19 | h19
  · have hmin : min (mlen - 4) 15 = 15 := Nat.min_eq_right (by omega)
    have hmx : matchLenExt mlen = extBytes (mlen - 19) := by rw [matchLenExt, if_pos h19]
    rw [if_pos (by rw [htokm, hmin])]
    rw [hmx, readExt_extBytes rest (mlen - 19) pre2 fuel 19 hfuel]
    simp only [Prod.mk.injEq, extBytes_length]
    exact ⟨by omega, trivial⟩
  · have hmin : min (mlen - 4) 15 = mlen - 4 := Nat.min_eq_left (by omega)
    rw [if_neg (by rw [htokm, hmin]; omega), htokm, hmin]
    have hmx : matchLenExt mlen = [] := by rw [matchLenExt, if_neg (by omega)]
    rw [hmx]
    simp
    omega

/-! ### One decoder iteration per encoded sequence -/

/-- On the wire format of a final (literal-only) sequence whose literals fill
the remaining output exactly, one decoder iteration copies the literals and
breaks out of the loop. -/
theorem lz4Step_final (pre out lits : List Nat) :
    lz4Step (pre ++ serSeq (lits, none)) (out.length + lits.length) pre.length out
      = .ok (.inl (out ++ lits)) := by
  have hser : serSeq (lits, none)
      = (16 * min lits.length 15) :: (litExt lits.length ++ lits) := rfl
  rw [hser, lz4Step]
  have hdl : (pre ++ (16 * min lits.length 15) :: (litExt lits.length ++ lits)).length
      = pre.length + 1 + (litExt lits.length).length + lits.length := by
    simp
    omega
  rw [if_pos (by rw [hdl]; omega)]
  rcases Nat.eq_zero_or_pos lits.length with hll | hll
  · have hnil : lits = [] := List.length_eq_zero.mp hll
    rw [if_neg (by omega), hnil]
    simp
  · rw [if_pos (by omega)]
    have htokg : (pre ++ (16 * min lits.length 15) :: (litExt lits.length ++ lits)).getD
        pre.length 0 = 16 * min lits.length 15 := getD_append_at pre _ _
    simp only [htokg]
    have htok : 16 * min lits.length 15 / 16 % 16 = min lits.length 15 := by
      rw [Nat.mul_div_cancel_left _ (by norm_num : (0:Nat) < 16)]
      exact Nat.mod_eq_of_lt (lt_of_le_of_lt (Nat.min_le_right _ _) (by norm_num))
    have hfuel : (lits.length - 15) / 255 + 1
        ≤ (pre ++ (16 * min lits.length 15) :: (litExt lits.length ++ lits)).length := by
      rw [hdl]
      rcases le_or_lt 15 lits.length with h15 | h15
      · rw [litExt_length lits.length h15]; omega
      · have h0 : lits.length - 15 = 0 := by omega
        rw [h0]; simp; omega
    rw [consumeLit pre (16 * min lits.length 15) lits.length lits _ htok hfuel]
    dsimp only
    have hsub1 : (pre ++ (16 * min lits.length 15) :: (litExt lits.length ++ lits)).length
        - (pre.length + 1 + (litExt lits.length).length) = lits.length := by
      rw [hdl]; omega
    have hsub2 : out.length + lits.length - out.length = lits.length := by omega
    simp only [hsub1, hsub2, Nat.min_self]
    have hdrop : List.drop (pre.length + 1 + (litExt lits.length).length)
        (pre ++ (16 * min lits.length 15) :: (litExt lits.length ++ lits)) = lits := by
      have hre : pre ++ (16 * min lits.length 15) :: (litExt lits.length ++ lits)
          = (pre ++ (16 * min lits.length 15) :: litExt lits.length) ++ lits := by simp
      have hplen : pre.length + 1 + (litExt lits.length).length
          = (pre ++ (16 * min lits.length 15) :: litExt lits.length).length := by
        simp
        omega
      rw [hre, hplen, List.drop_left]
    simp only [hdrop, List.take_length]
    rw [if_pos (Or.inl (by simp))]

/-- On the wire format of a non-final sequence (literals plus a match), one
decoder iteration copies the literals, runs the match copy, and continues
with the source cursor just past this sequence's serialization. -/
theorem lz4Step_mid (pre out lits : List Nat) (off mlen usize : Nat) (tail : List Nat)
    (hoff0 : 0 < off) (hoffle : off ≤ out.length + lits.length)
    (hm4 : 4 ≤ mlen) (husize : out.length + lits.length + mlen ≤ usize) :
    lz4Step (pre ++ (serSeq (lits, some (off, mlen)) ++ tail)) usize pre.length out
      = .ok (.inr (pre.length + (serSeq (lits, some (off, mlen))).length,
                   matchExtend (out ++ lits) off mlen)) := by
  set tok := 16 * min lits.length 15 + min (mlen - 4) 15 with hT
  have hser : serSeq (lits, some (off, mlen)) ++ tail
      = tok :: (litExt lits.length
          ++ (lits ++ off % 256 :: off / 256 :: (matchLenExt mlen ++ tail))) := by
    simp [serSeq]
  rw [hser, lz4Step]
  have hdl : (pre ++ tok :: (litExt lits.length
      ++ (lits ++ off % 256 :: off / 256 :: (matchLenExt mlen ++ tail)))).length
      = pre.length + 1 + (litExt lits.length).length + lits.length + 2
        + (matchLenExt mlen).length + tail.length := by
    simp
    omega
  rw [if_pos (by rw [hdl]; omega)]
  rw [if_pos (by omega)]
  have htokg : (pre ++ tok :: (litExt lits.length
      ++ (lits ++ off % 256 :: off / 256 :: (matchLenExt mlen ++ tail)))).getD pre.length 0
      = tok := getD_append_at pre _ _
  simp only [htokg]
  have hmlt : min (mlen - 4) 15 < 16 := lt_of_le_of_lt (Nat.min_le_right _ _) (by norm_num)
  have hllt : min lits.length 15 < 16 := lt_of_le_of_lt (Nat.min_le_right _ _) (by norm_num)
  have htok : tok / 16 % 16 = min lits.length 15 := by
    rw [hT, Nat.mul_add_div (by norm_num), Nat.div_eq_of_lt hmlt, Nat.add_zero]
    exact Nat.mod_eq_of_lt hllt
  have hfuel : (lits.length - 15) / 255 + 1
      ≤ (pre ++ tok :: (litExt lits.length
          ++ (lits ++ off % 256 :: off / 256 :: (matchLenExt mlen ++ tail)))).length := by
    rw [hdl]
    rcases le_or_lt 15 lits.length with h15 | h15
    · rw [litExt_length lits.length h15]; omega
    · have h0 : lits.length - 15 = 0 := by omega
      rw [h0]; simp; omega
  rw [consumeLit pre tok lits.length
    (lits ++ off % 256 :: off / 256 :: (matchLenExt mlen ++ tail)) _ htok hfuel]
  dsimp only
  have hsub1 : (pre ++ tok :: (litExt lits.length
      ++ (lits ++ off % 256 :: off / 256 :: (matchLenExt mlen ++ tail)))).length
      - (pre.length + 1 + (litExt lits.length).length)
      = lits.length + 2 + (matchLenExt mlen).length + tail.length := by
    rw [hdl]; omega
  simp only [hsub1]
  have hcopy : min lits.length
      (min (lits.length + 2 + (matchLenExt mlen).length + tail.length) (usize - out.length))
      = lits.length := Nat.min_eq_left (le_min (by omega) (by omega))
  simp only [hcopy]
  have hdrop : List.drop (pre.length + 1 + (litExt lits.length).length)
      (pre ++ tok :: (litExt lits.length
        ++ (lits ++ off % 256 :: off / 256 :: (matchLenExt mlen ++ tail))))
      = lits ++ off % 256 :: off / 256 :: (matchLenExt mlen ++ tail) := by
    have hre : pre ++ tok :: (litExt lits.length
        ++ (lits ++ off % 256 :: off / 256 :: (matchLenExt mlen ++ tail)))
        = (pre ++ tok :: litExt lits.length)
            ++ (lits ++ off % 256 :: off / 256 :: (matchLenExt mlen ++ tail)) := by simp
    have hplen : pre.length + 1 + (litExt lits.length).length
        = (pre ++ tok :: litExt lits.length).length := by simp; omega
    rw [hre, hplen, List.drop_left]
  simp only [hdrop, List.take_left]
  rw [if_neg (by simp only [List.length_append, hdl]; omega)]
  have hoffb0 : (pre ++ tok :: (litExt lits.length
      ++ (lits ++ off % 256 :: off / 256 :: (matchLenExt mlen ++ tail)))).getD
        (pre.length + 1 + (litExt lits.length).length + lits.length) 0 = off % 256 := by
    have hre2 : pre ++ tok :: (litExt lits.length
        ++ (lits ++ off % 256 :: off / 256 :: (matchLenExt mlen ++ tail)))
        = (pre ++ tok :: (litExt lits.length ++ lits))
            ++ off % 256 :: (off / 256 :: (matchLenExt mlen ++ tail)) := by simp
    have hplen2 : pre.length + 1 + (litExt lits.length).length + lits.length
        = (pre ++ tok :: (litExt lits.length ++ lits)).length := by simp; omega
    rw [hre2, hplen2, getD_append_at]
  have hoffb1 : (pre ++ tok :: (litExt lits.length
      ++ (lits ++ off % 256 :: off / 256 :: (matchLenExt mlen ++ tail)))).getD
        (pre.length + 1 + (litExt lits.length).length + lits.length + 1) 0 = off / 256 := by
    have hre3 : pre ++ tok :: (litExt lits.length
        ++ (lits ++ off % 256 :: off / 256 :: (matchLenExt mlen ++ tail)))
        = (pre ++ tok :: (litExt lits.length ++ (lits ++ [off % 256])))
            ++ off / 256 :: (matchLenExt mlen ++ tail) := by simp
    have hplen3 : pre.length + 1 + (litExt lits.length).length + lits.length + 1
        = (pre ++ tok :: (litExt lits.length ++ (lits ++ [off % 256]))).length := by
      simp; omega
    rw [hre3, hplen3, getD_append_at]
  simp only [hoffb0, hoffb1]
  have hoffv : off % 256 + 256 * (off / 256) = off := Nat.mod_add_div off 256
  simp only [hoffv]
  rw [if_neg (by omega)]
  have htokm : tok % 16 = min (mlen - 4) 15 := by
    rw [hT, Nat.mul_add_mod]
    exact Nat.mod_eq_of_lt hmlt
  have hre4 : pre ++ tok :: (litExt lits.length
      ++ (lits ++ off % 256 :: off / 256 :: (matchLenExt mlen ++ tail)))
      = (pre ++ tok :: (litExt lits.length ++ (lits ++ [off % 256, off / 256])))
          ++ (matchLenExt mlen ++ tail) := by simp
  have hplen4 : pre.length + 1 + (litExt lits.length).length + lits.length + 2
      = (pre ++ tok :: (litExt lits.length ++ (lits ++ [off % 256, off / 256]))).length := by
    simp; omega
  rw [hre4, hplen4]
  have hfuel2 : (mlen - 19) / 255 + 1
      ≤ ((pre ++ tok :: (litExt lits.length ++ (lits ++ [off % 256, off / 256])))
          ++ (matchLenExt mlen ++ tail)).length := by
    simp only [List.length_append]
    rcases le_or_lt 19 mlen with h19 | h19
    · have : (matchLenExt mlen).length = (mlen - 19) / 255 + 1 := by
        rw [matchLenExt, if_pos h19, extBytes_length]
      simp [this]
      omega
    · have h0 : mlen - 19 = 0 := by omega
      rw [h0]; simp; omega
  rw [consumeMatch (pre ++ tok :: (litExt lits.length ++ (lits ++ [off % 256, off / 256])))
    tok mlen tail _ hm4 htokm hfuel2]
  dsimp only
  rw [if_neg (by simp; omega)]
  have hle2 : off ≤ (out ++ lits).length := by simp; omega
  have hcm := lzCopyMatch_exact usize (out ++ lits) off hoff0 hle2 mlen
    (by simp; omega) mlen 0 (by omega)
  simp only [List.range_zero, List.map_nil, List.append_nil] at hcm
  rw [hcm]
  rw [matchExtend_eq_periodic (out ++ lits) off hoff0 hle2 mlen]
  have hlenser : (pre ++ tok :: (litExt lits.length ++ (lits ++ [off % 256, off / 256]))).length
      + (matchLenExt mlen).length
      = pre.length + (serSeq (lits, some (off, mlen))).length := by
    simp [serSeq]
    omega
  rw [hlenser]

/-! ### The round-trip theorem -/

theorem serSeq_length_pos (s : LZSeq) : 1 ≤ (serSeq s).length := by
  obtain ⟨lits, m⟩ := s
  cases m with
  | none => simp [serSeq]
  | some p =>
    obtain ⟨off, mlen⟩ := p
    simp [serSeq]

theorem serializeSeqs_length_ge (seqs : List LZSeq) :
    seqs.length ≤ (serializeSeqs seqs).length := by
  induction seqs with
  | nil => simp [serializeSeqs]
  | cons s rest ih =>
    have := serSeq_length_pos s
    simp only [serializeSeqs, List.length_append, List.length_cons]
    omega

theorem lz4_seq_loop : ∀ (seqs : List LZSeq) (fuel : Nat) (pre out : List Nat),
    wfSeqs out.length seqs = true →
    seqs.length ≤ fuel →
    lz4Loop (pre ++ serializeSeqs seqs) (decodeFrom out seqs).length fuel pre.length out
      = .ok (decodeFrom out seqs) := by
  intro seqs
  induction seqs with
  | nil =>
    intro fuel pre out hwf _
    simp [wfSeqs] at hwf
  | cons s rest ih =>
    intro fuel pre out hwf hfuel
    obtain ⟨lits, m⟩ := s
    obtain ⟨f, rfl⟩ : ∃ f, fuel = f + 1 :=
      ⟨fuel - 1, by simp at hfuel; omega⟩
    cases m with
    | none =>
      have hrest : rest = [] := by
        simpa [wfSeqs, List.isEmpty_iff] using hwf
      subst hrest
      have hser : serializeSeqs [(lits, none)] = serSeq (lits, none) := by
        simp [serializeSeqs]
      have hdec : decodeFrom out [(lits, none)] = out ++ lits := rfl
      rw [hser, hdec, lz4Loop]
      have hlen : (out ++ lits).length = out.length + lits.length := by simp
      rw [hlen, lz4Step_final pre out lits]
    | some p =>
      obtain ⟨off, mlen⟩ := p
      simp only [wfSeqs, Bool.and_eq_true, decide_eq_true_eq] at hwf
      obtain ⟨⟨⟨⟨hoff0, hoffle⟩, hoff16⟩, hm4⟩, hwfrest⟩ := hwf
      have hser : serializeSeqs ((lits, some (off, mlen)) :: rest)
          = serSeq (lits, some (off, mlen)) ++ serializeSeqs rest := rfl
      have hdec : decodeFrom out ((lits, some (off, mlen)) :: rest)
          = decodeFrom (matchExtend (out ++ lits) off mlen) rest := rfl
      rw [hser, hdec, lz4Loop]
      have hmel : (matchExtend (out ++ lits) off mlen).length
          = out.length + lits.length + mlen := by
        rw [matchExtend_length]
        simp
      obtain ⟨t, ht⟩ := decodeFrom_prefix rest (matchExtend (out ++ lits) off mlen)
      have husize : out.length + lits.length + mlen
          ≤ (decodeFrom (matchExtend (out ++ lits) off mlen) rest).length := by
        rw [ht, List.length_append, hmel]
        omega
      rw [lz4Step_mid pre out lits off mlen _ (serializeSeqs rest) hoff0 hoffle hm4 husize]
      have hassoc : pre ++ (serSeq (lits, some (off, mlen)) ++ serializeSeqs rest)
          = (pre ++ serSeq (lits, some (off, mlen))) ++ serializeSeqs rest := by simp
      have hpos : pre.length + (serSeq (lits, some (off, mlen))).length
          = (pre ++ serSeq (lits, some (off, mlen))).length := by simp
      rw [hassoc, hpos]
      have hwfrest2 : wfSeqs (matchExtend (out ++ lits) off mlen).length rest = true := by
        rw [hmel]
        exact hwfrest
      exact ih f (pre ++ serSeq (lits, some (off, mlen)))
        (matchExtend (out ++ lits) off mlen) hwfrest2 (by simp at hfuel; omega)

/-- Claim C1: LZ4 round-trip.  For every byte string `input` and every
conforming LZ4 block encoding of it (a well-formed sequence list whose
reference decompression is `input`), `decompress_lz4_block` applied to the
serialized block with `uncompressed_size = input.length` returns exactly
`input`; overlapping matches (offset < match length) are included, the
modular-index copy reproducing the reference byte-by-byte copy. -/
theorem C1_lz4_roundtrip (input : List Nat) (seqs : List LZSeq)
    (hwf : wfSeqs 0 seqs = true) (hdec : decodeFrom [] seqs = input) :
    decompress_lz4_block (serializeSeqs seqs) input.length = .ok input := by
  subst hdec
  have h := lz4_seq_loop seqs ((serializeSeqs seqs).length + 1) [] []
    (by simpa using hwf)
    (by have := serializeSeqs_length_ge seqs; omega)
  simpa [decompress_lz4_block] using h

/-- Witness for C1: the spec scenario `"ABCABCABCABCABC"` (15 bytes), encoded
with literals `"ABC"` and an overlapping match of offset 3 and length 12. -/
theorem C1_lz4_roundtrip_witness :
    decompress_lz4_block
        (serializeSeqs [([65, 66, 67], some (3, 12)), ([], none)])
        (List.length [65, 66, 67, 65, 66, 67, 65, 66, 67, 65, 66, 67, 65, 66, 67])
      = .ok [65, 66, 67, 65, 66, 67, 65, 66, 67, 65, 66, 67, 65, 66, 67] :=
  C1_lz4_roundtrip [65, 66, 67, 65, 66, 67, 65, 66, 67, 65, 66, 67, 65, 66, 67]
    [([65, 66, 67], some (3, 12)), ([], none)] (by decide) (by decide)

/-! ## §2  Pack index reader (mpk.py, read_mpkinfo)

The Python reader opens the index file and performs sequential reads.
`f.read(n)` returns up to `n` bytes; `struct.unpack` raises `struct.error`
unless given exactly the needed number of bytes.  There is no exception
handler in `read_mpkinfo`, so any `struct.error` propagates to the caller;
the model therefore returns `Except Unit`. -/

/-- The bytes obtained by `f.read(n)` when the file contents are `data` and
the cursor is at `pos`. -/
def readChunk (data : List Nat) (pos n : Nat) : List Nat := (data.drop pos).take n

/-- `struct.unpack("<H", c)`: little-endian u16; raises unless exactly 2 bytes. -/
def unpack16 (c : List Nat) : Except Unit Nat :=
  if c.length = 2 then .ok (c.getD 0 0 + 256 * c.getD 1 0) else .error ()

/-- `struct.unpack("<I", c)`: little-endian u32; raises unless exactly 4 bytes. -/
def unpack32 (c : List Nat) : Except Unit Nat :=
  if c.length = 4 then
    .ok (c.getD 0 0 + 256 * c.getD 1 0 + 65536 * c.getD 2 0 + 16777216 * c.getD 3 0)
  else .error ()

/-- One parsed entry of the `.mpkinfo` index.  The name bytes are kept raw
(the Python code decodes them lossily to a string; no field this development
reasons about depends on the decode). -/
structure MpkEntry where
  name : List Nat
  offset : Nat
  length : Nat
  pak_index : Nat
deriving DecidableEq

/-- The entry loop of `read_mpkinfo`: for each declared entry read a u16 name
length, the name bytes, then u32 offset, length and raw pack index; the entry
is kept only when its length field is positive, and its pack index is the raw
value divided by 2.  Reads mirror the Python file object (short name reads do
not raise; the following `struct.unpack` does). -/
def readMpkEntries (data : List Nat) : Nat → Nat → Except Unit (List MpkEntry)
  | _, 0 => .ok []
  | pos, n+1 =>
    match unpack16 (readChunk data pos 2) with
    | .error e => .error e
    | .ok nameLen =>
      let name := readChunk data (pos + 2) nameLen
      match unpack32 (readChunk data (pos + 2 + name.length) 4) with
      | .error e => .error e
      | .ok off =>
        match unpack32 (readChunk data (pos + 2 + name.length + 4) 4) with
        | .error e => .error e
        | .ok len =>
          match unpack32 (readChunk data (pos + 2 + name.length + 8) 4) with
          | .error e => .error e
          | .ok praw =>
            match readMpkEntries data (pos + 2 + name.length + 12) n with
            | .error e => .error e
            | .ok rest => .ok (if 0 < len then ⟨name, off, len, praw / 2⟩ :: rest else rest)

/-- `read_mpkinfo` from mpk.py, on the byte contents of the index file:
skip 4 header bytes, read the u32 entry count, then run the entry loop. -/
def read_mpkinfo (data : List Nat) : Except Unit (List MpkEntry) :=
  match unpack32 (readChunk data (readChunk data 0 4).length 4) with
  | .error e => .error e
  | .ok num => readMpkEntries data ((readChunk data 0 4).length + 4) num

/-! ### Well-formed index files (spec side) -/

/-- Little-endian 16-bit encoding. -/
def le16 (n : Nat) : List Nat := [n % 256, n / 256 % 256]

/-- Little-endian 32-bit encoding. -/
def le32 (n : Nat) : List Nat :=
  [n % 256, n / 256 % 256, n / 65536 % 256, n / 16777216 % 256]

/-- The on-disk fields of one index entry before parsing. -/
structure RawMpkEntry where
  name : List Nat
  offset : Nat
  length : Nat
  rawIndex : Nat
deriving DecidableEq

def serMpkEntry (e : RawMpkEntry) : List Nat :=
  le16 e.name.length ++ e.name ++ le32 e.offset ++ le32 e.length ++ le32 e.rawIndex

def serMpkEntries : List RawMpkEntry → List Nat
  | [] => []
  | e :: rest => serMpkEntry e ++ serMpkEntries rest

/-- Field-width side conditions of the index format. -/
def wfRawEntry (e : RawMpkEntry) : Prop :=
  e.name.length < 65536 ∧ e.offset < 4294967296 ∧ e.length < 4294967296
    ∧ e.rawIndex < 4294967296

instance (e : RawMpkEntry) : Decidable (wfRawEntry e) := by
  unfold wfRawEntry
  infer_instance

/-- The parsed form of a raw entry: same fields, pack index halved. -/
def mpkEntryOf (e : RawMpkEntry) : MpkEntry := ⟨e.name, e.offset, e.length, e.rawIndex / 2⟩

/-- A well-formed index file: 4 header bytes, a declared count, the entries. -/
def mkMpkinfo (hdr : List Nat) (count : Nat) (es : List RawMpkEntry) : List Nat :=
  hdr ++ (le32 count ++ serMpkEntries es)

/-! ### Reader lemmas -/

theorem readChunk_append (pre x : List Nat) (k : Nat) :
    readChunk (pre ++ x) pre.length k = x.take k := by
  simp [readChunk]

theorem readChunk_length (data : List Nat) (pos n : Nat) :
    (readChunk data pos n).length = min n (data.length - pos) := by
  simp [readChunk]

theorem unpack16_le16 (pre post : List Nat) (n : Nat) (h : n < 65536) :
    unpack16 (readChunk (pre ++ (le16 n ++ post)) pre.length 2) = .ok n := by
  rw [readChunk_append]
  have htake : (le16 n ++ post).take 2 = [n % 256, n / 256 % 256] := by
    simp [le16]
  rw [htake, unpack16]
  simp only [List.length_cons, List.length_nil, if_pos]
  have : n % 256 + 256 * (n / 256 % 256) = n := by omega
  simp [List.getD, this]

theorem unpack32_le32 (pre post : List Nat) (n : Nat) (h : n < 4294967296) :
    unpack32 (readChunk (pre ++ (le32 n ++ post)) pre.length 4) = .ok n := by
  rw [readChunk_append]
  have htake : (le32 n ++ post).take 4
      = [n % 256, n / 256 % 256, n / 65536 % 256, n / 16777216 % 256] := by
    simp [le32]
  rw [htake, unpack32]
  simp only [List.length_cons, List.length_nil, if_pos]
  have : n % 256 + 256 * (n / 256 % 256) + 65536 * (n / 65536 % 256)
      + 16777216 * (n / 16777216 % 256) = n := by omega
  simp [List.getD, this]

theorem le16_length (n : Nat) : (le16 n).length = 2 := by simp [le16]

theorem le32_length (n : Nat) : (le32 n).length = 4 := by simp [le32]

theorem serMpkEntry_length (e : RawMpkEntry) :
    (serMpkEntry e).length = 2 + e.name.length + 12 := by
  simp [serMpkEntry, le16, le32]
  omega

/-- One iteration of the `read_mpkinfo` entry loop over the serialization of a
well-formed entry parses exactly its fields and continues just past it. -/
theorem readMpkEntries_cons_ser (pre post : List Nat) (e : RawMpkEntry) (n : Nat)
    (hwfe : wfRawEntry e) :
    readMpkEntries (pre ++ (serMpkEntry e ++ post)) pre.length (n+1)
      = match readMpkEntries (pre ++ (serMpkEntry e ++ post))
            (pre.length + (serMpkEntry e).length) n with
        | .error err => .error err
        | .ok rest => .ok (if 0 < e.length then mpkEntryOf e :: rest else rest) := by
  obtain ⟨hnl, hoff, hlen, hraw⟩ := hwfe
  have hshape : serMpkEntry e ++ post
      = le16 e.name.length ++ (e.name ++ (le32 e.offset
          ++ (le32 e.length ++ (le32 e.rawIndex ++ post)))) := by
    simp [serMpkEntry]
  rw [hshape, readMpkEntries]
  rw [unpack16_le16 pre (e.name ++ (le32 e.offset ++ (le32 e.length
      ++ (le32 e.rawIndex ++ post)))) e.name.length hnl]
  have hname : readChunk (pre ++ (le16 e.name.length ++ (e.name ++ (le32 e.offset
      ++ (le32 e.length ++ (le32 e.rawIndex ++ post)))))) (pre.length + 2) e.name.length
      = e.name := by
    have h1 : pre ++ (le16 e.name.length ++ (e.name ++ (le32 e.offset
        ++ (le32 e.length ++ (le32 e.rawIndex ++ post)))))
        = (pre ++ le16 e.name.length) ++ (e.name ++ (le32 e.offset
            ++ (le32 e.length ++ (le32 e.rawIndex ++ post)))) := by simp
    have h2 : pre.length + 2 = (pre ++ le16 e.name.length).length := by simp [le16]
    rw [h1, h2, readChunk_append, List.take_left]
  simp only [hname]
  have hoffu : unpack32 (readChunk (pre ++ (le16 e.name.length ++ (e.name
      ++ (le32 e.offset ++ (le32 e.length ++ (le32 e.rawIndex ++ post))))))
      (pre.length + 2 + e.name.length) 4) = .ok e.offset := by
    have h1 : pre ++ (le16 e.name.length ++ (e.name ++ (le32 e.offset
        ++ (le32 e.length ++ (le32 e.rawIndex ++ post)))))
        = (pre ++ (le16 e.name.length ++ e.name)) ++ (le32 e.offset
            ++ (le32 e.length ++ (le32 e.rawIndex ++ post))) := by simp
    have h2 : pre.length + 2 + e.name.length
        = (pre ++ (le16 e.name.length ++ e.name)).length := by simp [le16]; omega
    rw [h1, h2, unpack32_le32 _ _ _ hoff]
  simp only [hoffu]
  have hlenu : unpack32 (readChunk (pre ++ (le16 e.name.length ++ (e.name
      ++ (le32 e.offset ++ (le32 e.length ++ (le32 e.rawIndex ++ post))))))
      (pre.length + 2 + e.name.length + 4) 4) = .ok e.length := by
    have h1 : pre ++ (le16 e.name.length ++ (e.name ++ (le32 e.offset
        ++ (le32 e.length ++ (le32 e.rawIndex ++ post)))))
        = (pre ++ (le16 e.name.length ++ (e.name ++ le32 e.offset)))
            ++ (le32 e.length ++ (le32 e.rawIndex ++ post)) := by simp
    have h2 : pre.length + 2 + e.name.length + 4
        = (pre ++ (le16 e.name.length ++ (e.name ++ le32 e.offset))).length := by
      simp [le16, le32]; omega
    rw [h1, h2, unpack32_le32 _ _ _ hlen]
  simp only [hlenu]
  have hrawu : unpack32 (readChunk (pre ++ (le16 e.name.length ++ (e.name
      ++ (le32 e.offset ++ (le32 e.length ++ (le32 e.rawIndex ++ post))))))
      (pre.length + 2 + e.name.length + 8) 4) = .ok e.rawIndex := by
    have h1 : pre ++ (le16 e.name.length ++ (e.name ++ (le32 e.offset
        ++ (le32 e.length ++ (le32 e.rawIndex ++ post)))))
        = (pre ++ (le16 e.name.length ++ (e.name ++ (le32 e.offset ++ le32 e.length))))
            ++ (le32 e.rawIndex ++ post) := by simp
    have h2 : pre.length + 2 + e.name.length + 8
        = (pre ++ (le16 e.name.length ++ (e.name
            ++ (le32 e.offset ++ le32 e.length)))).length := by
      simp [le16, le32]; omega
    rw [h1, h2, unpack32_le32 _ _ _ hraw]
  simp only [hrawu]
  have hpos : pre.length + 2 + e.name.length + 12
      = pre.length + (serMpkEntry e).length := by
    rw [serMpkEntry_length]; omega
  rw [hpos]
  cases hrec : readMpkEntries (pre ++ (le16 e.name.length ++ (e.name ++ (le32 e.offset
      ++ (le32 e.length ++ (le32 e.rawIndex ++ post))))))
      (pre.length + (serMpkEntry e).length) n with
  | error err => rfl
  | ok rest => rfl

/-- The entry loop over the serialization of `es` followed by anything:
parses the well-formed entries in order, keeping exactly those with positive
length, then continues with the remaining count just past them. -/
theorem readMpkEntries_ser :
    ∀ (es : List RawMpkEntry) (pre post : List Nat) (k : Nat),
      (∀ e ∈ es, wfRawEntry e) →
      readMpkEntries (pre ++ (serMpkEntries es ++ post)) pre.length (es.length + k)
        = match readMpkEntries (pre ++ (serMpkEntries es ++ post))
              (pre.length + (serMpkEntries es).length) k with
          | .error err => .error err
          | .ok rest =>
              .ok ((es.filter fun e => decide (0 < e.length)).map mpkEntryOf ++ rest) := by
  intro es
  induction es with
  | nil =>
    intro pre post k hwf
    simp only [serMpkEntries, List.nil_append, List.length_nil, Nat.zero_add, Nat.add_zero]
    cases h : readMpkEntries (pre ++ post) pre.length k with
    | error err => rfl
    | ok rest => simp
  | cons e rest ih =>
    intro pre post k hwf
    have hA : serMpkEntries (e :: rest) ++ post
        = serMpkEntry e ++ (serMpkEntries rest ++ post) := by
      simp [serMpkEntries]
    have hcnt : (e :: rest).length + k = (rest.length + k) + 1 := by simp; omega
    rw [hA, hcnt, readMpkEntries_cons_ser pre (serMpkEntries rest ++ post) e
      (rest.length + k) (hwf e (by simp))]
    have hB : pre ++ (serMpkEntry e ++ (serMpkEntries rest ++ post))
        = (pre ++ serMpkEntry e) ++ (serMpkEntries rest ++ post) := by simp
    have hC : pre.length + (serMpkEntry e).length = (pre ++ serMpkEntry e).length := by simp
    rw [hB, hC, ih (pre ++ serMpkEntry e) post k (fun x hx => hwf x (by simp [hx]))]
    have hD : (pre ++ serMpkEntry e).length + (serMpkEntries rest).length
        = pre.length + (serMpkEntries (e :: rest)).length := by
      simp [serMpkEntries]
      omega
    rw [hD]
    cases hrec : readMpkEntries ((pre ++ serMpkEntry e) ++ (serMpkEntries rest ++ post))
        (pre.length + (serMpkEntries (e :: rest)).length) k with
    | error err => rfl
    | ok v =>
      simp only [List.filter_cons]
      by_cases hc : 0 < e.length
      · simp [hc]
      · simp [hc]

/-- Claim C4: on a well-formed index file with `N` entries, `read_mpkinfo`
returns exactly the entries whose length field is positive, in file order,
each with `pak_index` the raw stored index divided by 2. -/
theorem C4_read_mpkinfo_wellformed (hdr : List Nat) (es : List RawMpkEntry)
    (hhdr : hdr.length = 4) (hcount : es.length < 4294967296)
    (hwf : ∀ e ∈ es, wfRawEntry e) :
    read_mpkinfo (mkMpkinfo hdr es.length es)
      = .ok ((es.filter fun e => decide (0 < e.length)).map mpkEntryOf) := by
  rw [read_mpkinfo, mkMpkinfo]
  have hch : readChunk (hdr ++ (le32 es.length ++ serMpkEntries es)) 0 4 = hdr := by
    rw [readChunk]
    simp only [List.drop_zero]
    rw [← hhdr, List.take_left]
  rw [hch, unpack32_le32 hdr (serMpkEntries es) es.length hcount]
  have hser := readMpkEntries_ser es (hdr ++ le32 es.length) [] 0 hwf
  simp only [Nat.add_zero, List.append_nil, readMpkEntries] at hser
  have hpos : hdr.length + 4 = (hdr ++ le32 es.length).length := by simp [le32]
  have hB : hdr ++ (le32 es.length ++ serMpkEntries es)
      = (hdr ++ le32 es.length) ++ serMpkEntries es := by simp
  rw [hpos, hB]
  exact hser

/-- Witness for C4 (spec scenario 1): header plus two entries, the second
with length 0; the result is the first entry only, with `pak_index 2`. -/
theorem C4_read_mpkinfo_wellformed_witness :
    read_mpkinfo (mkMpkinfo [0, 0, 0, 0] 2
        [⟨[97, 46, 98], 256, 16, 4⟩, ⟨[99, 46, 112, 108, 105, 115, 116], 512, 0, 2⟩])
      = .ok [⟨[97, 46, 98], 256, 16, 2⟩] := by
  have h := C4_read_mpkinfo_wellformed [0, 0, 0, 0]
    [⟨[97, 46, 98], 256, 16, 4⟩, ⟨[99, 46, 112, 108, 105, 115, 116], 512, 0, 2⟩]
    (by decide) (by decide) (by decide)
  simpa using h

/-! ### Truncated index files make `read_mpkinfo` raise

`read_mpkinfo` contains no exception handler; a `struct.unpack` call that
receives fewer bytes than it needs raises `struct.error`, which propagates to
the caller.  The lemmas below show that parsing a strict prefix of an entry
always hits such a call. -/

theorem unpack16_le16_val (n : Nat) (h : n < 65536) : unpack16 (le16 n) = .ok n := by
  rw [unpack16]
  simp only [le16, List.length_cons, List.length_nil, if_pos]
  have hv : n % 256 + 256 * (n / 256 % 256) = n := by omega
  simp [List.getD, hv]

theorem unpack32_readChunk_error (data : List Nat) (pos : Nat) (h : data.length < pos + 4) :
    unpack32 (readChunk data pos 4) = .error () := by
  rw [unpack32, if_neg]
  rw [readChunk_length]
  omega

theorem unpack32_readChunk_ok (data : List Nat) (pos : Nat) (h : pos + 4 ≤ data.length) :
    ∃ v, unpack32 (readChunk data pos 4) = .ok v := by
  have hl : (readChunk data pos 4).length = 4 := by
    rw [readChunk_length]
    omega
  rw [unpack32, if_pos hl]
  exact ⟨_, rfl⟩

/-- Parsing one entry from a strict prefix of a well-formed entry
serialization placed at the end of the file raises `struct.error`. -/
theorem readMpkEntries_truncated (pre : List Nat) (e : RawMpkEntry) (m n : Nat)
    (hwe : wfRawEntry e) (hm : m < (serMpkEntry e).length) :
    readMpkEntries (pre ++ (serMpkEntry e).take m) pre.length (n+1) = .error () := by
  have hsl := serMpkEntry_length e
  have hdlen : (pre ++ (serMpkEntry e).take m).length = pre.length + m := by
    simp [List.length_take]
    omega
  rw [readMpkEntries]
  rcases lt_or_ge m 2 with h2 | h2
  · have hu : unpack16 (readChunk (pre ++ (serMpkEntry e).take m) pre.length 2)
        = .error () := by
      rw [unpack16, if_neg]
      rw [readChunk_length, hdlen]
      omega
    rw [hu]
  · have ht2 : readChunk (pre ++ (serMpkEntry e).take m) pre.length 2
        = le16 e.name.length := by
      rw [readChunk_append]
      have htt : ((serMpkEntry e).take m).take 2 = (serMpkEntry e).take 2 := by
        rw [List.take_take]
        congr 1
        omega
      rw [htt]
      have hser2 : serMpkEntry e = le16 e.name.length ++ (e.name ++ (le32 e.offset
          ++ (le32 e.length ++ le32 e.rawIndex))) := by
        simp [serMpkEntry]
      rw [hser2, show (2:Nat) = (le16 e.name.length).length from (le16_length _).symm,
        List.take_left]
    rw [ht2, unpack16_le16_val e.name.length hwe.1]
    have hnamelen : (readChunk (pre ++ (serMpkEntry e).take m) (pre.length + 2)
        e.name.length).length = min e.name.length (m - 2) := by
      rw [readChunk_length, hdlen]
      omega
    simp only [hnamelen]
    rcases lt_or_ge (m - 2) e.name.length with hshort | hfull
    · have hmin : min e.name.length (m - 2) = m - 2 := by omega
      simp only [hmin]
      rw [unpack32_readChunk_error _ _ (by rw [hdlen]; omega)]
    · have hmin : min e.name.length (m - 2) = e.name.length := by omega
      simp only [hmin]
      rcases lt_or_ge m (2 + e.name.length + 4) with hc1 | hc1
      · rw [unpack32_readChunk_error _ _ (by rw [hdlen]; omega)]
      · obtain ⟨v1, hv1⟩ := unpack32_readChunk_ok (pre ++ (serMpkEntry e).take m)
          (pre.length + 2 + e.name.length) (by rw [hdlen]; omega)
        rw [hv1]
        rcases lt_or_ge m (2 + e.name.length + 8) with hc2 | hc2
        · rw [unpack32_readChunk_error _ _ (by rw [hdlen]; omega)]
        · obtain ⟨v2, hv2⟩ := unpack32_readChunk_ok (pre ++ (serMpkEntry e).take m)
            (pre.length + 2 + e.name.length + 4) (by rw [hdlen]; omega)
          rw [hv2]
          rw [unpack32_readChunk_error _ _ (by rw [hdlen]; omega)]

/-- Counterexample to claim C3 as stated: an index file declaring one entry
but containing none.  The claim says `read_mpkinfo` does not raise and
returns the (empty) list of fully read entries; the code raises
`struct.error` (modelled as `.error ()`) instead. -/
theorem C3_counterexample :
    read_mpkinfo [0, 0, 0, 0, 1, 0, 0, 0] = .error () := by rfl

/-- Claim C3 as amended: on every index file whose declared entry count
exceeds the entries actually present (the well-formed entries are followed by
a strict prefix of one more well-formed entry), `read_mpkinfo` raises
`struct.error`, which propagates to the caller; no partial entry list is
returned. -/
theorem C3_read_mpkinfo_truncated_raises (hdr : List Nat) (es : List RawMpkEntry)
    (e : RawMpkEntry) (m count : Nat) (hhdr : hdr.length = 4)
    (hcount : count < 4294967296) (hwf : ∀ x ∈ es, wfRawEntry x)
    (hwe : wfRawEntry e) (hm : m < (serMpkEntry e).length) (hgt : es.length < count) :
    read_mpkinfo (hdr ++ (le32 count ++ (serMpkEntries es ++ (serMpkEntry e).take m)))
      = .error () := by
  rw [read_mpkinfo]
  have hch : readChunk (hdr ++ (le32 count ++ (serMpkEntries es ++ (serMpkEntry e).take m)))
      0 4 = hdr := by
    rw [readChunk]
    simp only [List.drop_zero]
    rw [← hhdr, List.take_left]
  rw [hch, unpack32_le32 hdr (serMpkEntries es ++ (serMpkEntry e).take m) count hcount]
  show readMpkEntries (hdr ++ (le32 count ++ (serMpkEntries es ++ (serMpkEntry e).take m)))
      (hdr.length + 4) count = Except.error ()
  have hpos : hdr.length + 4 = (hdr ++ le32 count).length := by simp [le32]
  have hB : hdr ++ (le32 count ++ (serMpkEntries es ++ (serMpkEntry e).take m))
      = (hdr ++ le32 count) ++ (serMpkEntries es ++ (serMpkEntry e).take m) := by simp
  rw [hpos, hB]
  set pre0 := hdr ++ le32 count with hpre0
  have hk : count = es.length + ((count - es.length - 1) + 1) := by omega
  rw [hk, readMpkEntries_ser es pre0 ((serMpkEntry e).take m)
    ((count - es.length - 1) + 1) hwf]
  have hC : pre0 ++ (serMpkEntries es ++ (serMpkEntry e).take m)
      = (pre0 ++ serMpkEntries es) ++ (serMpkEntry e).take m := by simp
  have hD : pre0.length + (serMpkEntries es).length
      = (pre0 ++ serMpkEntries es).length := by simp
  rw [hC, hD, readMpkEntries_truncated (pre0 ++ serMpkEntries es) e m
    (count - es.length - 1) hwe hm]

/-- Witness for the amended C3: a header, one complete entry, a declared
count of 2, and a 3-byte fragment of a second entry; `read_mpkinfo` raises. -/
theorem C3_read_mpkinfo_truncated_raises_witness :
    read_mpkinfo ([0, 0, 0, 0] ++ (le32 2 ++ (serMpkEntries [⟨[97], 7, 9, 4⟩]
        ++ (serMpkEntry ⟨[98], 1, 2, 3⟩).take 3))) = .error () :=
  C3_read_mpkinfo_truncated_raises [0, 0, 0, 0] [⟨[97], 7, 9, 4⟩] ⟨[98], 1, 2, 3⟩ 3 2
    (by decide) (by decide) (by decide) (by decide) (by decide) (by decide)

/-! ## §3  Pack-file enumeration (mpk.py, get_mpk_files)

`get_mpk_files` is modelled on the index-file stem and an existence oracle
`ex` standing for `Path.exists`; paths are file names relative to the
(constant) parent directory of the index file.  Python `str.lower` and
`str.startswith` are modelled structurally over the character list (for the
ASCII stems involved `Char.toLower` agrees with Python `str.lower`; the
structural definitions, unlike `String.toLower`, also reduce in the kernel).
The probe loop is `for i in range(1, 1000)`: it starts at `<stem>1.mpk` and
performs at most 999 probes. -/

def listStartsWith : List Char → List Char → Bool
  | _, [] => true
  | [], _ :: _ => false
  | c :: s, p :: ps => c == p && listStartsWith s ps

def strToLower (s : String) : String := ⟨s.data.map Char.toLower⟩

def strStartsWith (s pre : String) : Bool := listStartsWith s.data pre.data

/-- The numbered-file probe loop of `get_mpk_files`: append
`<basename><i>.mpk` while it exists, stop at the first missing one; at most
`n` probes (the Python loop runs `i` from 1 to 999). -/
def probeNumbered (ex : String → Bool) (basename : String) : Nat → Nat → List String
  | _, 0 => []
  | i, n+1 =>
    if ex (basename ++ toString i ++ ".mpk")
    then (basename ++ toString i ++ ".mpk") :: probeNumbered ex basename (i+1) n
    else []

/-- Stem normalization of `get_mpk_files`: a stem that lowercases to
something starting with "resource" becomes the canonical `Resources`. -/
def normStem (stem : String) : String :=
  if strStartsWith (strToLower stem) "resource" then "Resources" else stem

/-- `get_mpk_files` from mpk.py: the base `<stem>.mpk` unconditionally,
then the numbered files from the probe loop. -/
def get_mpk_files (stem : String) (ex : String → Bool) : List String :=
  (normStem stem ++ ".mpk") :: probeNumbered ex (normStem stem) 1 999

/-- Characterization of the probe loop: if the first `j` probed names exist
and either the budget is exhausted (`j = n`) or the next name is missing,
the loop returns exactly names `i, i+1, …, i+j-1`. -/
theorem probeNumbered_spec (ex : String → Bool) (b : String) :
    ∀ n i j, j ≤ n →
      (∀ t, i ≤ t → t < i + j → ex (b ++ toString t ++ ".mpk") = true) →
      (j = n ∨ ex (b ++ toString (i + j) ++ ".mpk") = false) →
      probeNumbered ex b i n = (List.range' i j).map (fun t => b ++ toString t ++ ".mpk") := by
  intro n
  induction n with
  | zero =>
    intro i j hj _ _
    have hj0 : j = 0 := by omega
    subst hj0
    rfl
  | succ n ih =>
    intro i j hj hbelow hstop
    rw [probeNumbered]
    cases j with
    | zero =>
      have hex : ex (b ++ toString i ++ ".mpk") = false := by
        rcases hstop with h | h
        · omega
        · simpa using h
      simp [hex]
    | succ j =>
      have hex : ex (b ++ toString i ++ ".mpk") = true := hbelow i le_rfl (by omega)
      simp only [hex, if_pos]
      rw [List.range'_succ]
      simp only [List.map_cons]
      congr 1
      apply ih (i+1) j (by omega)
      · intro t ht1 ht2
        exact hbelow t (by omega) (by omega)
      · rcases hstop with h | h
        · left; omega
        · right
          have harg : i + (j + 1) = i + 1 + j := by omega
          rw [harg] at h
          exact h

/-- Claim C5 as amended: `get_mpk_files` returns `<stem>.mpk` (stem
normalized: a case-insensitive "resource*" stem becomes `Resources`)
followed by `<stem>1.mpk`, `<stem>2.mpk`, … up to but not including the
first missing numbered file **or `<stem>1000.mpk`, whichever comes first**:
the probe loop checks only indices 1..999. -/
theorem C5_get_mpk_files_enumeration (stem : String) (ex : String → Bool) (k : Nat)
    (hk1 : 1 ≤ k) (hk2 : k ≤ 1000)
    (hbelow : ∀ i, 1 ≤ i → i < k → ex (normStem stem ++ toString i ++ ".mpk") = true)
    (hstop : k = 1000 ∨ ex (normStem stem ++ toString k ++ ".mpk") = false) :
    get_mpk_files stem ex
      = (normStem stem ++ ".mpk")
        :: (List.range' 1 (k-1)).map (fun i => normStem stem ++ toString i ++ ".mpk") := by
  rw [get_mpk_files]
  congr 1
  apply probeNumbered_spec ex (normStem stem) 999 1 (k-1) (by omega)
  · intro t ht1 ht2
    exact hbelow t ht1 (by omega)
  · rcases hstop with h | h
    · left; omega
    · right
      have harg : 1 + (k - 1) = k := by omega
      rw [harg]
      exact h

/-- Witness for the amended C5: stem `"Q"`, with `Q1.mpk` present and
`Q2.mpk` missing; the result is `[Q.mpk, Q1.mpk]`. -/
theorem C5_get_mpk_files_enumeration_witness :
    get_mpk_files "Q" (fun s => !(decide (s = "Q2.mpk"))) = ["Q.mpk", "Q1.mpk"] := by
  have h := C5_get_mpk_files_enumeration "Q" (fun s => !(decide (s = "Q2.mpk"))) 2
    (by norm_num) (by norm_num)
    (by
      intro i h1 h2
      have hi : i = 1 := by omega
      subst hi
      decide)
    (Or.inr (by decide))
  rw [h]
  decide

set_option maxRecDepth 10000 in
/-- Counterexample to claim C5 as stated: when every file exists there is no
"first missing numbered file", and in particular `R1.mpk` … `R999.mpk` all
exist with `R1000.mpk` also present and no gap before it — yet the code
omits `R1000.mpk`, because its probe loop is capped at index 999. -/
theorem C5_counterexample :
    (∀ s, (fun _ : String => true) s = true)
      ∧ ("R" ++ toString 1000 ++ ".mpk") ∉ get_mpk_files "R" (fun _ => true) :=
  ⟨fun _ => rfl, by decide⟩

/-! ## §4  GUID path derivation (repository.py, ResourceEntry.get_guid_path) -/

/-- Lowercase hexadecimal digit, as produced by Python `"%x"` formatting. -/
def hexDigit (n : Nat) : Char := if n < 10 then Char.ofNat (48 + n) else Char.ofNat (87 + n)

/-- Python `f"{b:02x}"` for a byte value `b < 256`: exactly two lowercase hex
characters. -/
def hex2 (b : Nat) : String := ⟨[hexDigit (b / 16), hexDigit (b % 16)]⟩

/-- `ResourceEntry.get_guid_path` from repository.py, on the 16 hash bytes
(the Python code indexes `h[0]` … `h[15]`, in scope only for 16-byte
hashes). -/
def get_guid_path (h : List Nat) : String :=
  hex2 (h.getD 0 0) ++ "/"
    ++ hex2 (h.getD 0 0) ++ hex2 (h.getD 1 0) ++ hex2 (h.getD 2 0) ++ hex2 (h.getD 3 0) ++ "-"
    ++ hex2 (h.getD 4 0) ++ hex2 (h.getD 5 0) ++ "-"
    ++ hex2 (h.getD 6 0) ++ hex2 (h.getD 7 0) ++ "-"
    ++ hex2 (h.getD 8 0) ++ hex2 (h.getD 9 0) ++ "-"
    ++ hex2 (h.getD 10 0) ++ hex2 (h.getD 11 0) ++ hex2 (h.getD 12 0)
    ++ hex2 (h.getD 13 0) ++ hex2 (h.getD 14 0) ++ hex2 (h.getD 15 0)

/-- The spec wording of the GUID path: the lowercase hex pairs of the 16
hash bytes in order, grouped 8-4-4-4-12 with hyphens, prefixed by a
directory segment that duplicates the first pair. -/
def specGuidPath (h : List Nat) : String :=
  String.join ((h.map hex2).take 1) ++ "/"
    ++ String.join ((h.map hex2).take 4) ++ "-"
    ++ String.join (((h.map hex2).drop 4).take 2) ++ "-"
    ++ String.join (((h.map hex2).drop 6).take 2) ++ "-"
    ++ String.join (((h.map hex2).drop 8).take 2) ++ "-"
    ++ String.join ((h.map hex2).drop 10)

theorem list_len16_destruct (h : List Nat) (hl : h.length = 16) :
    ∃ b0 b1 b2 b3 b4 b5 b6 b7 b8 b9 b10 b11 b12 b13 b14 b15 : Nat,
      h = [b0, b1, b2, b3, b4, b5, b6, b7, b8, b9, b10, b11, b12, b13, b14, b15] := by
  have hl16 : h.length = 16 := hl
  obtain ⟨b0, h, rfl⟩ := List.exists_of_length_succ h hl16
  simp only [List.length_cons] at hl16
  have hl15 : h.length = 15 := by omega
  obtain ⟨b1, h, rfl⟩ := List.exists_of_length_succ h hl15
  simp only [List.length_cons] at hl15
  have hl14 : h.length = 14 := by omega
  obtain ⟨b2, h, rfl⟩ := List.exists_of_length_succ h hl14
  simp only [List.length_cons] at hl14
  have hl13 : h.length = 13 := by omega
  obtain ⟨b3, h, rfl⟩ := List.exists_of_length_succ h hl13
  simp only [List.length_cons] at hl13
  have hl12 : h.length = 12 := by omega
  obtain ⟨b4, h, rfl⟩ := List.exists_of_length_succ h hl12
  simp only [List.length_cons] at hl12
  have hl11 : h.length = 11 := by omega
  obtain ⟨b5, h, rfl⟩ := List.exists_of_length_succ h hl11
  simp only [List.length_cons] at hl11
  have hl10 : h.length = 10 := by omega
  obtain ⟨b6, h, rfl⟩ := List.exists_of_length_succ h hl10
  simp only [List.length_cons] at hl10
  have hl9 : h.length = 9 := by omega
  obtain ⟨b7, h, rfl⟩ := List.exists_of_length_succ h hl9
  simp only [List.length_cons] at hl9
  have hl8 : h.length = 8 := by omega
  obtain ⟨b8, h, rfl⟩ := List.exists_of_length_succ h hl8
  simp only [List.length_cons] at hl8
  have hl7 : h.length = 7 := by omega
  obtain ⟨b9, h, rfl⟩ := List.exists_of_length_succ h hl7
  simp only [List.length_cons] at hl7
  have hl6 : h.length = 6 := by omega
  obtain ⟨b10, h, rfl⟩ := List.exists_of_length_succ h hl6
  simp only [List.length_cons] at hl6
  have hl5 : h.length = 5 := by omega
  obtain ⟨b11, h, rfl⟩ := List.exists_of_length_succ h hl5
  simp only [List.length_cons] at hl5
  have hl4 : h.length = 4 := by omega
  obtain ⟨b12, h, rfl⟩ := List.exists_of_length_succ h hl4
  simp only [List.length_cons] at hl4
  have hl3 : h.length = 3 := by omega
  obtain ⟨b13, h, rfl⟩ := List.exists_of_length_succ h hl3
  simp only [List.length_cons] at hl3
  have hl2 : h.length = 2 := by omega
  obtain ⟨b14, h, rfl⟩ := List.exists_of_length_succ h hl2
  simp only [List.length_cons] at hl2
  have hl1 : h.length = 1 := by omega
  obtain ⟨b15, h, rfl⟩ := List.exists_of_length_succ h hl1
  simp only [List.length_cons] at hl1
  have hl0 : h.length = 0 := by omega
  have hnil : h = [] := List.length_eq_zero.mp hl0
  subst hnil
  exact ⟨b0, b1, b2, b3, b4, b5, b6, b7, b8, b9, b10, b11, b12, b13, b14, b15, rfl⟩

/-- Claim C6: for a 16-byte hash, `get_guid_path` produces the
`"XX/XXXXXXXX-XXXX-XXXX-XXXX-XXXXXXXXXXXX"` string whose pairs are the
lowercase hex of the corresponding hash bytes (`specGuidPath`, built from
the spec wording); it is a pure function of the hash bytes, and the first
two characters of the filename equal the directory segment. -/
theorem C6_guid_path (h : List Nat) (hl : h.length = 16) (hb : ∀ b ∈ h, b < 256) :
    get_guid_path h = specGuidPath h
    ∧ (∀ h2 : List Nat, h2 = h → get_guid_path h2 = get_guid_path h)
    ∧ ((get_guid_path h).data.take 2 = ((get_guid_path h).data.drop 3).take 2) := by
  obtain ⟨b0, b1, b2, b3, b4, b5, b6, b7, b8, b9, b10, b11, b12, b13, b14, b15, rfl⟩ :=
    list_len16_destruct h hl
  refine ⟨?_, fun h2 he => by rw [he], ?_⟩
  · apply String.ext
    simp [get_guid_path, specGuidPath, String.join]
  · simp [get_guid_path, hex2]

/-- Witness for C6 at the spec scenario hash, together with the literal
expected string. -/
theorem C6_guid_path_witness :
    get_guid_path [0x0c, 0x36, 0x39, 0x8b, 0x90, 0xf9, 0x47, 0xcb,
        0xb9, 0x8f, 0x6e, 0x46, 0x9a, 0x78, 0x8c, 0x2e]
      = "0c/0c36398b-90f9-47cb-b98f-6e469a788c2e"
    ∧ (get_guid_path [0x0c, 0x36, 0x39, 0x8b, 0x90, 0xf9, 0x47, 0xcb,
          0xb9, 0x8f, 0x6e, 0x46, 0x9a, 0x78, 0x8c, 0x2e]
        = specGuidPath [0x0c, 0x36, 0x39, 0x8b, 0x90, 0xf9, 0x47, 0xcb,
            0xb9, 0x8f, 0x6e, 0x46, 0x9a, 0x78, 0x8c, 0x2e]
      ∧ (∀ h2 : List Nat, h2 = [0x0c, 0x36, 0x39, 0x8b, 0x90, 0xf9, 0x47, 0xcb,
            0xb9, 0x8f, 0x6e, 0x46, 0x9a, 0x78, 0x8c, 0x2e] →
          get_guid_path h2 = get_guid_path [0x0c, 0x36, 0x39, 0x8b, 0x90, 0xf9, 0x47, 0xcb,
            0xb9, 0x8f, 0x6e, 0x46, 0x9a, 0x78, 0x8c, 0x2e])
      ∧ ((get_guid_path [0x0c, 0x36, 0x39, 0x8b, 0x90, 0xf9, 0x47, 0xcb,
            0xb9, 0x8f, 0x6e, 0x46, 0x9a, 0x78, 0x8c, 0x2e]).data.take 2
          = ((get_guid_path [0x0c, 0x36, 0x39, 0x8b, 0x90, 0xf9, 0x47, 0xcb,
              0xb9, 0x8f, 0x6e, 0x46, 0x9a, 0x78, 0x8c, 0x2e]).data.drop 3).take 2)) :=
  ⟨by decide, C6_guid_path _ (by decide) (by decide)⟩

/-! ## §5  Resource catalog parser (repository.py, ResourceRepository._parse)

The header and the two string tables are parsed outside any exception
handler (a `struct.error` there propagates, modelled as `.error ()`); the
entry loop runs inside `try ... except (struct.error, IndexError): break`,
so it is total: a failed entry parse ends the loop, discarding that entry
and keeping the previous ones.  The two tables are kept as raw bytes (the
Python code decodes them lossily and splits on `;`; nothing the claims
reason about depends on that).  Python slices (`data[a:b]`) cannot raise
and may come up short; `struct.unpack_from` and single-byte indexing raise
when out of bounds, which is where `parseRepoEntry` returns `none`. -/

/-- `struct.unpack_from("<H", data, i)` once its bounds check passed. -/
def readLE16 (data : List Nat) (i : Nat) : Nat := data.getD i 0 + 256 * data.getD (i+1) 0

/-- One catalog record: 16 hash bytes, raw name bytes, folder and type
indices. -/
structure RepoEntry where
  hash : List Nat
  name : List Nat
  folder_index : Nat
  type_index : Nat
deriving DecidableEq

/-- One iteration of the catalog entry loop.  Returns the entry and the next
offset, or `none` exactly where the Python body would raise (`struct.error`
or `IndexError`, both caught by the loop's `except`, which breaks).  Note
the offset advances by the declared name length even when the name slice is
short, and by `16 * related_count` without any read. -/
def parseRepoEntry (data : List Nat) (off : Nat) : Option (RepoEntry × Nat) :=
  if off + 2 ≤ data.length then              -- unknown1 = unpack_from("<H", off)
    if off + 4 ≤ data.length then            -- unknown2 = unpack_from("<H", off+2)
      if off + 4 < data.length then          -- flag = data[off+4]
        -- hash = data[off+5 : off+21] (slice: cannot raise)
        if off + 21 + 2 ≤ data.length then   -- name_length = unpack_from("<H", off+21)
          if off + 23 + readLE16 data (off + 21) + 2 ≤ data.length then  -- folder_index
            if off + 25 + readLE16 data (off + 21) + 2 ≤ data.length then -- type_index
              if off + 27 + readLE16 data (off + 21) + 2 ≤ data.length then -- related_count
                some (⟨(data.drop (off + 5)).take 16,
                       (data.drop (off + 23)).take (readLE16 data (off + 21)),
                       readLE16 data (off + 23 + readLE16 data (off + 21)),
                       readLE16 data (off + 25 + readLE16 data (off + 21))⟩,
                      off + 29 + readLE16 data (off + 21)
                        + 16 * readLE16 data (off + 27 + readLE16 data (off + 21)))
              else none
            else none
          else none
        else none
      else none
    else none
  else none

/-- The catalog entry loop `while offset < len(self.data)` with its
`try/except: break`.  Each successful entry advances the offset by at least
29 bytes, so fuel `data.length + 1` never runs out before the loop ends. -/
def parseRepoEntries (data : List Nat) : Nat → Nat → List RepoEntry
  | 0, _ => []
  | fuel+1, off =>
    if off < data.length then
      match parseRepoEntry data off with
      | some (e, off2) => e :: parseRepoEntries data fuel off2
      | none => []
    else []

/-- The parsed `resource.repository`. -/
structure ResourceRepository where
  typesBytes : List Nat
  pathsBytes : List Nat
  entries : List RepoEntry
deriving DecidableEq

/-- `ResourceRepository._parse` (via `parse_repository`): u32 version, u16
flag, u32 flag, the two length-prefixed string tables, then the entry loop.
The header and table reads raise (`.error ()`) when out of bounds. -/
def parse_repository (data : List Nat) : Except Unit ResourceRepository :=
  if 4 ≤ data.length then                    -- version = unpack_from("<I", 0)
    if 6 ≤ data.length then                  -- unknown_flag1 = unpack_from("<H", 4)
      if 10 ≤ data.length then               -- unknown_flag2 = unpack_from("<I", 6)
        if 12 ≤ data.length then             -- types_length = unpack_from("<H", 10)
          if 12 + readLE16 data 10 + 2 ≤ data.length then -- paths_length
            .ok ⟨(data.drop 12).take (readLE16 data 10),
                 (data.drop (14 + readLE16 data 10)).take
                   (readLE16 data (12 + readLE16 data 10)),
                 parseRepoEntries data (data.length + 1)
                   (14 + readLE16 data 10 + readLE16 data (12 + readLE16 data 10))⟩
          else .error ()
        else .error ()
      else .error ()
    else .error ()
  else .error ()

/-! ### Entry parses are stable under extending the input -/

theorem readLE16_append (data ext : List Nat) (i : Nat) (h : i + 2 ≤ data.length) :
    readLE16 (data ++ ext) i = readLE16 data i := by
  rw [readLE16, readLE16, List.getD_append _ _ _ _ (by omega),
    List.getD_append _ _ _ _ (by omega)]

theorem slice_append (data ext : List Nat) (j k : Nat) (h : j + k ≤ data.length) :
    ((data ++ ext).drop j).take k = (data.drop j).take k := by
  rw [List.drop_append_of_le_length (by omega)]
  rw [List.take_append_of_le_length]
  simp
  omega

/-- A successful entry parse reads only within `data`, so it is unchanged
when the input is extended. -/
theorem parseRepoEntry_append (data ext : List Nat) (off : Nat) (p : RepoEntry × Nat)
    (h : parseRepoEntry data off = some p) :
    parseRepoEntry (data ++ ext) off = some p := by
  rw [parseRepoEntry] at h
  split_ifs at h with h1 h2 h3 h4 h5 h6 h7
  have hL : data.length ≤ (data ++ ext).length := by simp
  have hnl : readLE16 (data ++ ext) (off + 21) = readLE16 data (off + 21) :=
    readLE16_append data ext (off + 21) (by omega)
  rw [parseRepoEntry, if_pos (by omega), if_pos (by omega), if_pos (by omega),
    if_pos (by omega), hnl, if_pos (by omega), if_pos (by omega), if_pos (by omega)]
  rw [slice_append data ext (off + 5) 16 (by omega),
    slice_append data ext (off + 23) (readLE16 data (off + 21)) (by omega),
    readLE16_append data ext (off + 23 + readLE16 data (off + 21)) (by omega),
    readLE16_append data ext (off + 25 + readLE16 data (off + 21)) (by omega),
    readLE16_append data ext (off + 27 + readLE16 data (off + 21)) (by omega)]
  exact h

/-- Retention under truncation: the entries parsed from a (truncated) input
are a prefix of the entries parsed from any extension of it; a failed entry
parse only discards that entry. -/
theorem parseRepoEntries_append (data ext : List Nat) :
    ∀ fuelT fuelF off, fuelT ≤ fuelF →
      ∃ t, parseRepoEntries (data ++ ext) fuelF off
        = parseRepoEntries data fuelT off ++ t := by
  intro fuelT
  induction fuelT with
  | zero =>
    intro fuelF off _
    exact ⟨parseRepoEntries (data ++ ext) fuelF off, rfl⟩
  | succ n ih =>
    intro fuelF off hf
    obtain ⟨f, rfl⟩ : ∃ f, fuelF = f + 1 := ⟨fuelF - 1, by omega⟩
    rw [parseRepoEntries, parseRepoEntries]
    by_cases hoff : off < data.length
    · rw [if_pos hoff, if_pos (by simp; omega)]
      cases hp : parseRepoEntry data off with
      | some p =>
        obtain ⟨e, off2⟩ := p
        rw [parseRepoEntry_append data ext off (e, off2) hp]
        obtain ⟨t, ht⟩ := ih f off2 (by omega)
        refine ⟨t, ?_⟩
        show e :: parseRepoEntries (data ++ ext) f off2
            = (e :: parseRepoEntries data n off2) ++ t
        rw [ht]
        rfl
      | none =>
        exact ⟨_, (List.nil_append _).symm⟩
    · rw [if_neg hoff]
      exact ⟨_, (List.nil_append _).symm⟩

/-- Claim C7: for inputs long enough for the header and the two string
tables, `_parse` succeeds (the entry loop never raises — it is total, a
short read inside an entry ending the loop via the `except: break`); and the
entries parsed from a truncated input are a prefix of those parsed from the
full input, the partially read entry being discarded and all previously read
entries retained in order. -/
theorem C7_catalog_truncation (data ext : List Nat) :
    (14 + readLE16 data 10 + readLE16 data (12 + readLE16 data 10) ≤ data.length →
      ∃ r, parse_repository data = .ok r)
    ∧ (∀ off, ∃ t, parseRepoEntries (data ++ ext) ((data ++ ext).length + 1) off
        = parseRepoEntries data (data.length + 1) off ++ t) := by
  constructor
  · intro hlen
    rw [parse_repository, if_pos (by omega), if_pos (by omega), if_pos (by omega),
      if_pos (by omega), if_pos (by omega)]
    exact ⟨_, rfl⟩
  · intro off
    exact parseRepoEntries_append data ext ((data.length : Nat) + 1)
      ((data ++ ext).length + 1) off (by simp)

/-- Witness for C7: a 14-byte catalog (empty tables) followed by a 3-byte
entry fragment.  The header parse succeeds and the truncated parse is a
prefix of the extended parse. -/
theorem C7_catalog_truncation_witness :
    (∃ r, parse_repository [1, 0, 0, 0, 0, 0, 0, 0, 0, 0, 0, 0, 0, 0] = .ok r)
    ∧ (∃ t, parseRepoEntries ([1, 0, 0, 0, 0, 0, 0, 0, 0, 0, 0, 0, 0, 0] ++ [5, 5, 5])
        (([1, 0, 0, 0, 0, 0, 0, 0, 0, 0, 0, 0, 0, 0] ++ [5, 5, 5]).length + 1) 14
        = parseRepoEntries [1, 0, 0, 0, 0, 0, 0, 0, 0, 0, 0, 0, 0, 0]
            ((List.length [1, 0, 0, 0, 0, 0, 0, 0, 0, 0, 0, 0, 0, 0]) + 1) 14 ++ t) :=
  ⟨(C7_catalog_truncation [1, 0, 0, 0, 0, 0, 0, 0, 0, 0, 0, 0, 0, 0] [5, 5, 5]).1
      (by decide),
   (C7_catalog_truncation [1, 0, 0, 0, 0, 0, 0, 0, 0, 0, 0, 0, 0, 0] [5, 5, 5]).2 14⟩

/-! ## §6  MESSIAH texture container parser (texture.py)

`MessiahTexture.__init__` stores the raw bytes and calls `_parse_header`,
which raises `ValueError` (modelled `.error ()`) for inputs under 40 bytes,
parses the 40-byte `Texture2DInfo`, then walks up to `slice_count` slice
headers from offset 40.  After each 16-byte header the Python code advances
by `16` and then by `slice_info.size - 16` (signed); the net advance is
exactly `size`, which is how the walk is modelled (`size ≥ 0`, so the offset
never decreases, and Nat arithmetic is faithful).  The four f32 of
`default_color` are kept as raw bytes: nothing downstream reads them. -/

/-- `struct.unpack_from("<I", data, i)` once its bounds check passed. -/
def readLE32 (data : List Nat) (i : Nat) : Nat :=
  data.getD i 0 + 256 * data.getD (i+1) 0 + 65536 * data.getD (i+2) 0
    + 16777216 * data.getD (i+3) 0

structure Texture2DInfo where
  mag_filter : Nat
  min_filter : Nat
  mip_filter : Nat
  address_u : Nat
  address_v : Nat
  format : Nat
  mip_level : Nat
  flags : Nat
  compression_preset : Nat
  lod_group : Nat
  mip_gen_preset : Nat
  texture_type : Nat
  width : Nat
  height : Nat
  default_color : List Nat
  size : Nat
  unknown : Nat
  slice_count : Nat
deriving DecidableEq

/-- `Texture2DInfo.__init__` on the 40 header bytes. -/
def Texture2DInfo.parse (d : List Nat) : Texture2DInfo :=
  ⟨d.getD 0 0, d.getD 1 0, d.getD 2 0, d.getD 3 0, d.getD 4 0, d.getD 5 0,
   d.getD 6 0, d.getD 7 0, d.getD 8 0, d.getD 9 0, d.getD 10 0, d.getD 11 0,
   readLE16 d 12, readLE16 d 14, (d.drop 16).take 16, readLE32 d 32,
   readLE16 d 36, readLE16 d 38⟩

structure TextureSliceInfo where
  size : Nat
  width : Nat
  height : Nat
  depth : Nat
  pitch_in_byte : Nat
  slice_in_byte : Nat
deriving DecidableEq

/-- `TextureSliceInfo.__init__` on the 16 slice-header bytes. -/
def TextureSliceInfo.parse (d : List Nat) : TextureSliceInfo :=
  ⟨readLE32 d 0, readLE16 d 4, readLE16 d 6, readLE16 d 8, readLE16 d 10, readLE32 d 12⟩

/-- The slice-header walk of `_parse_header`: stop when a header would read
past end of input, else parse the 16-byte header at `off` and continue at
`off + size` (that is, 16 bytes of header plus `size - 16` of payload). -/
def parseSlices (data : List Nat) : Nat → Nat → List TextureSliceInfo
  | _, 0 => []
  | off, n+1 =>
    if off + 16 > data.length then []
    else
      TextureSliceInfo.parse ((data.drop off).take 16)
        :: parseSlices data (off + (TextureSliceInfo.parse ((data.drop off).take 16)).size) n

structure MessiahTexture where
  data : List Nat
  info : Texture2DInfo
  slices : List TextureSliceInfo
deriving DecidableEq

/-- `MessiahTexture.__init__` / `_parse_header`. -/
def MessiahTexture.parse (data : List Nat) : Except Unit MessiahTexture :=
  if data.length < 40 then .error ()
  else
    .ok ⟨data, Texture2DInfo.parse (data.take 40),
         parseSlices data 40 (Texture2DInfo.parse (data.take 40)).slice_count⟩

/-- Closed-form slice-header offsets: `o 0 = 40`,
`o (i+1) = o i + size of the header parsed at o i`. -/
def sliceOffsets (data : List Nat) : Nat → Nat
  | 0 => 40
  | i+1 => sliceOffsets data i
      + (TextureSliceInfo.parse ((data.drop (sliceOffsets data i)).take 16)).size

/-- The slice walk parses headers at the recurrence offsets, stopping at the
first header that would cross end of input or when `slice_count` headers
have been read. -/
theorem parseSlices_spec (data : List Nat) :
    ∀ n i, ∃ k, k ≤ n
      ∧ parseSlices data (sliceOffsets data i) n
          = (List.range' i k).map
              (fun j => TextureSliceInfo.parse ((data.drop (sliceOffsets data j)).take 16))
      ∧ (∀ j, i ≤ j → j < i + k → sliceOffsets data j + 16 ≤ data.length)
      ∧ (k < n → data.length < sliceOffsets data (i + k) + 16) := by
  intro n
  induction n with
  | zero =>
    intro i
    exact ⟨0, le_rfl, rfl, by omega, by omega⟩
  | succ n ih =>
    intro i
    rw [parseSlices]
    by_cases hend : sliceOffsets data i + 16 > data.length
    · refine ⟨0, by omega, by rw [if_pos hend]; rfl, by omega, ?_⟩
      intro _
      simpa using hend
    · rw [if_neg hend]
      obtain ⟨k, hk, heq, hin, hstop⟩ := ih (i + 1)
      have hoff : sliceOffsets data i
          + (TextureSliceInfo.parse ((data.drop (sliceOffsets data i)).take 16)).size
          = sliceOffsets data (i + 1) := rfl
      rw [hoff, heq]
      refine ⟨k + 1, by omega, ?_, ?_, ?_⟩
      · rw [List.range'_succ]
        simp
      · intro j hj1 hj2
        rcases Nat.eq_or_lt_of_le hj1 with hj | hj
        · rw [← hj]
          omega
        · exact hin j (by omega) (by omega)
      · intro hlt
        have := hstop (by omega)
        have harg : i + (k + 1) = i + 1 + k := by omega
        rw [harg]
        exact this

/-- Claim C8: inputs shorter than 40 bytes are rejected; for longer inputs
parsing succeeds, and the slice list is exactly the headers read at the
recurrence offsets (each 16-byte header followed by an advance of
`slice_size − 16`), stopping either after `slice_count` headers or at the
first header that would read past end of input, keeping the slices parsed
so far. -/
theorem C8_texture_header_parse (data : List Nat) :
    (data.length < 40 → MessiahTexture.parse data = .error ())
    ∧ (40 ≤ data.length → ∃ t, MessiahTexture.parse data = .ok t
        ∧ t.info = Texture2DInfo.parse (data.take 40)
        ∧ ∃ k, k ≤ t.info.slice_count
          ∧ t.slices = (List.range k).map
              (fun j => TextureSliceInfo.parse ((data.drop (sliceOffsets data j)).take 16))
          ∧ (∀ j, j < k → sliceOffsets data j + 16 ≤ data.length)
          ∧ (k < t.info.slice_count → data.length < sliceOffsets data k + 16)) := by
  constructor
  · intro h
    rw [MessiahTexture.parse, if_pos h]
  · intro h
    rw [MessiahTexture.parse, if_neg (by omega)]
    refine ⟨_, rfl, rfl, ?_⟩
    obtain ⟨k, hk, heq, hin, hstop⟩ :=
      parseSlices_spec data (Texture2DInfo.parse (data.take 40)).slice_count 0
    refine ⟨k, hk, ?_, ?_, ?_⟩
    · have h40 : sliceOffsets data 0 = 40 := rfl
      rw [h40] at heq
      show parseSlices data 40 (Texture2DInfo.parse (data.take 40)).slice_count
          = (List.range k).map
              (fun j => TextureSliceInfo.parse ((data.drop (sliceOffsets data j)).take 16))
      rw [heq, List.range_eq_range']
    · intro j hj
      exact hin j (by omega) (by omega)
    · intro hlt
      have := hstop hlt
      simpa using this

/-- Witness for C8: a 39-byte input is rejected; a 56-byte input (40-byte
header declaring one slice, one 16-byte slice header) parses. -/
theorem C8_texture_header_parse_witness :
    (MessiahTexture.parse (List.replicate 39 0) = .error ())
    ∧ (∃ t, MessiahTexture.parse (List.replicate 36 0
          ++ [0, 0, 1, 0, 16, 0, 0, 0, 2, 0, 1, 0, 1, 0, 0, 0, 0, 0, 0, 0]) = .ok t
        ∧ t.info = Texture2DInfo.parse ((List.replicate 36 0
            ++ [0, 0, 1, 0, 16, 0, 0, 0, 2, 0, 1, 0, 1, 0, 0, 0, 0, 0, 0, 0]).take 40)
        ∧ ∃ k, k ≤ t.info.slice_count
          ∧ t.slices = (List.range k).map
              (fun j => TextureSliceInfo.parse (((List.replicate 36 0
                  ++ [0, 0, 1, 0, 16, 0, 0, 0, 2, 0, 1, 0, 1, 0, 0, 0, 0, 0, 0, 0]).drop
                    (sliceOffsets (List.replicate 36 0
                      ++ [0, 0, 1, 0, 16, 0, 0, 0, 2, 0, 1, 0, 1, 0, 0, 0, 0, 0, 0, 0]) j)).take 16))
          ∧ (∀ j, j < k → sliceOffsets (List.replicate 36 0
              ++ [0, 0, 1, 0, 16, 0, 0, 0, 2, 0, 1, 0, 1, 0, 0, 0, 0, 0, 0, 0]) j + 16
                ≤ (List.replicate 36 0
                  ++ [0, 0, 1, 0, 16, 0, 0, 0, 2, 0, 1, 0, 1, 0, 0, 0, 0, 0, 0, 0]).length)
          ∧ (k < t.info.slice_count → (List.replicate 36 0
              ++ [0, 0, 1, 0, 16, 0, 0, 0, 2, 0, 1, 0, 1, 0, 0, 0, 0, 0, 0, 0]).length
                < sliceOffsets (List.replicate 36 0
                  ++ [0, 0, 1, 0, 16, 0, 0, 0, 2, 0, 1, 0, 1, 0, 0, 0, 0, 0, 0, 0]) k + 16)) :=
  ⟨(C8_texture_header_parse (List.replicate 39 0)).1 (by decide),
   (C8_texture_header_parse (List.replicate 36 0
      ++ [0, 0, 1, 0, 16, 0, 0, 0, 2, 0, 1, 0, 1, 0, 0, 0, 0, 0, 0, 0])).2 (by decide)⟩

/-! ## §7  Sprite extraction: rotation-aware cropping (extract.py, lines 191–197)

The atlas image and PIL's `crop` and `rotate(90, expand=True)` are modelled
as functions on an image abstraction: `pix x y` is the pixel at column `x`
of row `y`.  `crop (l, t, r, b)` yields an `(r−l) × (b−t)` image whose pixel
`(x, y)` is the source pixel `(l+x, t+y)`, black (0) outside the source
bounds, per PIL's documented behavior.  `rotate(90, expand=True)` rotates a
quarter turn counter-clockwise: on a `w × h` source the result is `h × w`
with `pix x y = src.pix (w−1−y) x` (the right edge becomes the top).  PIL is
an out-of-scope collaborator; these definitions model its stable documented
contract. -/

structure PImage where
  width : Nat
  height : Nat
  pix : Nat → Nat → Nat

def cropImg (img : PImage) (l t r b : Nat) : PImage :=
  ⟨r - l, b - t, fun x y =>
    if l + x < img.width ∧ t + y < img.height then img.pix (l + x) (t + y) else 0⟩

def rotate90ccw (img : PImage) : PImage :=
  ⟨img.height, img.width, fun x y => img.pix (img.width - 1 - y) x⟩

/-- The transpose of an image (the claim's "transposed crop"). -/
def transposeImg (img : PImage) : PImage :=
  ⟨img.height, img.width, fun x y => img.pix y x⟩

/-- The per-frame crop of `extract_sprites`: crop `(x, y, x+h, y+w)` and
rotate 90° counter-clockwise when the frame is rotated, else crop
`(x, y, x+w, y+h)`. -/
def extractSprite (atlas : PImage) (x y w h : Nat) (rotated : Bool) : PImage :=
  if rotated then rotate90ccw (cropImg atlas x y (x + h) (y + w))
  else cropImg atlas x y (x + w) (y + h)

/-- A 2×2 atlas with four distinct pixel values. -/
def atlasC9 : PImage := ⟨2, 2, fun x y => x + 2 * y⟩

/-- Counterexample to the last part of claim C9: the rotated sprite is not
the transposed crop.  At frame (x 0, y 0, w 1, h 2) on a 2×2 atlas the
rotated sprite's pixel (0,0) is the atlas pixel (1,0), while the transposed
crop's pixel (0,0) is the atlas pixel (0,0), and they differ.  (Rotation by
90° equals transposition followed by a vertical flip, not transposition.) -/
theorem C9_counterexample :
    extractSprite atlasC9 0 0 1 2 true ≠ transposeImg (cropImg atlasC9 0 0 2 1) := by
  intro hc
  have hp := congrArg (fun im => im.pix 0 0) hc
  simp [extractSprite, rotate90ccw, transposeImg, cropImg, atlasC9] at hp

/-- Claim C9 as amended: for positive `w` and `h`, both the rotated and the
unrotated sprite have dimensions `(w, h)`; and the rotated sprite equals the
transposed crop of the region `(x, y, x+h, y+w)` **with its rows in reverse
order** (rotation = transposition followed by a top-to-bottom flip). -/
theorem C9_crop_rotation (atlas : PImage) (x y w h : Nat) (hw : 0 < w) (hh : 0 < h) :
    (extractSprite atlas x y w h true).width = w
    ∧ (extractSprite atlas x y w h true).height = h
    ∧ (extractSprite atlas x y w h false).width = w
    ∧ (extractSprite atlas x y w h false).height = h
    ∧ (∀ i j, j < h →
        (extractSprite atlas x y w h true).pix i j
          = (transposeImg (cropImg atlas x y (x + h) (y + w))).pix i (h - 1 - j)) := by
  refine ⟨?_, ?_, ?_, ?_, ?_⟩
  · simp [extractSprite, rotate90ccw, cropImg]
  · simp [extractSprite, rotate90ccw, cropImg]
  · simp [extractSprite, cropImg]
  · simp [extractSprite, cropImg]
  · intro i j hj
    simp [extractSprite, rotate90ccw, transposeImg, cropImg]

/-- Witness for C9 at the 2×2 atlas and frame (0, 0, 1, 2). -/
theorem C9_crop_rotation_witness :
    (extractSprite atlasC9 0 0 1 2 true).width = 1
    ∧ (extractSprite atlasC9 0 0 1 2 true).height = 2
    ∧ (extractSprite atlasC9 0 0 1 2 false).width = 1
    ∧ (extractSprite atlasC9 0 0 1 2 false).height = 2
    ∧ (∀ i j, j < 2 →
        (extractSprite atlasC9 0 0 1 2 true).pix i j
          = (transposeImg (cropImg atlasC9 0 0 (0 + 2) (0 + 1))).pix i (2 - 1 - j)) :=
  C9_crop_rotation atlasC9 0 0 1 2 (by decide) (by decide)

/-! ## §8  Texture decoding wrapper (texture.py, decode_texture)

`decode_texture` and `load_texture` wrap every internal failure in
`try/except` and return `None`.  External collaborators are abstracted in a
`DecodeEnv`: the availability and behavior of `texture2ddecoder`, the
`lz4.block.decompress` call made by `decompress_slice_data`, and PIL's
`Image.frombytes` (which raises on a buffer-size mismatch).  Each may fail
(`Except Unit`), standing for a raised exception. -/

structure DecodeEnv where
  hasTextureDecoder : Bool
  lz4BlockDecompress : List Nat → Nat → Except Unit (List Nat)
  decodeBC1 : List Nat → Nat → Nat → Except Unit (List Nat)
  decodeBC7 : List Nat → Nat → Nat → Except Unit (List Nat)
  decodeASTC : List Nat → Nat → Nat → Nat → Nat → Except Unit (List Nat)
  frombytes : Nat → Nat → List Nat → String → Except Unit PImage

/-- `decompress_slice_data(data, marker)`: `"NNNN"` strips the marker,
`"ZZZ4"` reads a u32 size and LZ4-decompresses the remainder (raising when
the payload is too short for the size field), anything else passes the bytes
through. -/
def decompress_slice_data (env : DecodeEnv) (data marker : List Nat) : Except Unit (List Nat) :=
  if marker = [78, 78, 78, 78] then .ok (data.drop 4)
  else if marker = [90, 90, 90, 52] then
    if 8 ≤ data.length then env.lz4BlockDecompress (data.drop 8) (readLE32 data 4)
    else .error ()
  else .ok data

/-- `get_astc_block_size(pixel_format)`; raises `ValueError` for a
non-ASTC format. -/
def get_astc_block_size (pixel_format : Nat) : Except Unit (Nat × Nat) :=
  if pixel_format = 36 then .ok (4, 4)
  else if pixel_format = 40 then .ok (6, 6)
  else if pixel_format = 43 then .ok (8, 8)
  else .error ()

/-- Python list indexing `xs[i]` for a list of length `n`: negative indices
count from the end; out of range raises `IndexError` (`none`). -/
def pyIndex (n : Nat) (i : Int) : Option Nat :=
  if 0 ≤ (if i < 0 then (n : Int) + i else i)
      ∧ (if i < 0 then (n : Int) + i else i) < (n : Int)
  then some (if i < 0 then (n : Int) + i else i).toNat
  else none

/-- The payload of the slice decoded by `MessiahTexture.decode`: the slice
block located by summing the sizes of the earlier slices (`range` of a
negative mip level is empty, matching Python), minus its 16-byte header.
The marker checked by `decompress_slice_data` is the first 4 bytes of this
payload (`slice_data[16:20]`). -/
def sliceBody (t : MessiahTexture) (idx : Nat) (mip : Int) : List Nat :=
  ((t.data.drop (40 + ((List.range mip.toNat).map
      (fun i => (t.slices.getD i ⟨0, 0, 0, 0, 0, 0⟩).size)).sum)).take
    (t.slices.getD idx ⟨0, 0, 0, 0, 0, 0⟩).size).drop 16

/-- The pixel-format dispatch at the end of `MessiahTexture.decode`:
5 raw RGBA, 25 BC7, 36/40/43 ASTC, 18 BC1, anything else raises
`NotImplementedError`; the block formats raise `ImportError` when the GPU
decoder library is absent. -/
def decodeDispatch (env : DecodeEnv) (fmt w h : Nat) (raw_data : List Nat) :
    Except Unit PImage :=
  if fmt = 5 then
    env.frombytes w h raw_data "RGBA"
  else if fmt = 25 then
    if env.hasTextureDecoder then
      match env.decodeBC7 raw_data w h with
      | .error e => .error e
      | .ok dec => env.frombytes w h dec "BGRA"
    else .error ()
  else if fmt = 36 ∨ fmt = 40 ∨ fmt = 43 then
    match get_astc_block_size fmt with
    | .error e => .error e
    | .ok bs =>
      if env.hasTextureDecoder then
        match env.decodeASTC raw_data w h bs.1 bs.2 with
        | .error e => .error e
        | .ok dec => env.frombytes w h dec "BGRA"
      else .error ()
  else if fmt = 18 then
    if env.hasTextureDecoder then
      match env.decodeBC1 raw_data w h with
      | .error e => .error e
      | .ok dec => env.frombytes w h dec "BGRA"
    else .error ()
  else .error ()

/-- `MessiahTexture.decode(mip_level)`: check the mip level (`ValueError`),
index the slice list with Python semantics (`IndexError`), decompress the
slice payload by its marker, then dispatch on the pixel format. -/
def MessiahTexture.decode (env : DecodeEnv) (t : MessiahTexture) (mip : Int) :
    Except Unit PImage :=
  if (t.slices.length : Int) ≤ mip then .error ()
  else
    match pyIndex t.slices.length mip with
    | none => .error ()
    | some idx =>
      match decompress_slice_data env (sliceBody t idx mip) ((sliceBody t idx mip).take 4) with
      | .error e => .error e
      | .ok raw_data =>
        decodeDispatch env t.info.format (t.slices.getD idx ⟨0, 0, 0, 0, 0, 0⟩).width
          (t.slices.getD idx ⟨0, 0, 0, 0, 0, 0⟩).height raw_data

/-- `load_texture`: catch-all around the constructor. -/
def load_texture (data : List Nat) : Option MessiahTexture :=
  (MessiahTexture.parse data).toOption

/-- The mip level actually decoded: `-1` selects the last slice. -/
def resolveMip (t : MessiahTexture) (mip : Int) : Int :=
  if mip = -1 then (t.slices.length : Int) - 1 else mip

/-- `decode_texture`: parse, resolve the default mip, decode, and convert
every raised exception to `None`. -/
def decode_texture (env : DecodeEnv) (data : List Nat) (mip : Int) : Option PImage :=
  match load_texture data with
  | none => none
  | some t => (t.decode env (resolveMip t mip)).toOption

/-! ### decode_texture converts every internal error to None -/

theorem decodeDispatch_unsupported (env : DecodeEnv) (fmt w h : Nat) (raw : List Nat)
    (h5 : fmt ≠ 5) (h18 : fmt ≠ 18) (h25 : fmt ≠ 25)
    (h36 : fmt ≠ 36) (h40 : fmt ≠ 40) (h43 : fmt ≠ 43) :
    decodeDispatch env fmt w h raw = .error () := by
  rw [decodeDispatch, if_neg h5, if_neg h25, if_neg (by simp [h36, h40, h43]), if_neg h18]

theorem decodeDispatch_noLib (env : DecodeEnv) (fmt w h : Nat) (raw : List Nat)
    (hl : env.hasTextureDecoder = false) (h5 : fmt ≠ 5) :
    decodeDispatch env fmt w h raw = .error () := by
  rw [decodeDispatch, if_neg h5]
  by_cases h25 : fmt = 25
  · rw [if_pos h25]
    simp [hl]
  · rw [if_neg h25]
    by_cases hastc : fmt = 36 ∨ fmt = 40 ∨ fmt = 43
    · rw [if_pos hastc]
      cases hbs : get_astc_block_size fmt with
      | error e => rfl
      | ok bs => simp [hl]
    · rw [if_neg hastc]
      by_cases h18 : fmt = 18
      · rw [if_pos h18]
        simp [hl]
      · rw [if_neg h18]

theorem decode_error_unsupported (env : DecodeEnv) (t : MessiahTexture) (mip : Int)
    (h5 : t.info.format ≠ 5) (h18 : t.info.format ≠ 18) (h25 : t.info.format ≠ 25)
    (h36 : t.info.format ≠ 36) (h40 : t.info.format ≠ 40) (h43 : t.info.format ≠ 43) :
    t.decode env mip = .error () := by
  rw [MessiahTexture.decode]
  by_cases h1 : (t.slices.length : Int) ≤ mip
  · rw [if_pos h1]
  · rw [if_neg h1]
    cases pyIndex t.slices.length mip with
    | none => rfl
    | some idx =>
      dsimp only
      cases decompress_slice_data env (sliceBody t idx mip) ((sliceBody t idx mip).take 4) with
      | error e => rfl
      | ok raw =>
        exact decodeDispatch_unsupported env t.info.format _ _ raw h5 h18 h25 h36 h40 h43

theorem decode_error_noLib (env : DecodeEnv) (t : MessiahTexture) (mip : Int)
    (hl : env.hasTextureDecoder = false) (h5 : t.info.format ≠ 5) :
    t.decode env mip = .error () := by
  rw [MessiahTexture.decode]
  by_cases h1 : (t.slices.length : Int) ≤ mip
  · rw [if_pos h1]
  · rw [if_neg h1]
    cases pyIndex t.slices.length mip with
    | none => rfl
    | some idx =>
      dsimp only
      cases decompress_slice_data env (sliceBody t idx mip) ((sliceBody t idx mip).take 4) with
      | error e => rfl
      | ok raw => exact decodeDispatch_noLib env t.info.format _ _ raw hl h5

/-- Claim C10: `decode_texture` is total at the public interface — it
returns an image or `none` and never raises; inputs under 40 bytes give
`none`; when parsing succeeds, a decode error of any kind (out-of-range mip
level, decompression failure, unsupported pixel format, missing GPU decoder
library, image-construction failure) yields `none`, and a successful decode
yields exactly that image. -/
theorem C10_decode_texture_total (env : DecodeEnv) (data : List Nat) (mip : Int) :
    (decode_texture env data mip = none ∨ ∃ img, decode_texture env data mip = some img)
    ∧ (data.length < 40 → decode_texture env data mip = none)
    ∧ (∀ t, MessiahTexture.parse data = .ok t →
        (∀ e, t.decode env (resolveMip t mip) = .error e →
          decode_texture env data mip = none)
        ∧ (∀ img, t.decode env (resolveMip t mip) = .ok img →
          decode_texture env data mip = some img)
        ∧ (mip ≠ -1 → (t.slices.length : Int) ≤ mip → decode_texture env data mip = none)
        ∧ (t.info.format ∉ ([5, 18, 25, 36, 40, 43] : List Nat) →
          decode_texture env data mip = none)
        ∧ (env.hasTextureDecoder = false → t.info.format ≠ 5 →
          decode_texture env data mip = none)) := by
  refine ⟨?_, ?_, ?_⟩
  · cases h : decode_texture env data mip with
    | none => exact Or.inl rfl
    | some img => exact Or.inr ⟨img, rfl⟩
  · intro h
    have hload : load_texture data = none := by
      rw [load_texture, MessiahTexture.parse, if_pos h]
      rfl
    rw [decode_texture, hload]
  · intro t hp
    have hload : load_texture data = some t := by
      rw [load_texture, hp]
      rfl
    have hdt : decode_texture env data mip = (t.decode env (resolveMip t mip)).toOption := by
      rw [decode_texture, hload]
    refine ⟨?_, ?_, ?_, ?_, ?_⟩
    · intro e he
      rw [hdt, he]
      rfl
    · intro img hi
      rw [hdt, hi]
      rfl
    · intro hne hle
      have hres : resolveMip t mip = mip := by rw [resolveMip, if_neg hne]
      rw [hdt, hres, MessiahTexture.decode, if_pos hle]
      rfl
    · intro hf
      simp only [List.mem_cons, List.not_mem_nil, or_false, not_or] at hf
      obtain ⟨h5, h18, h25, h36, h40, h43⟩ := hf
      rw [hdt, decode_error_unsupported env t _ h5 h18 h25 h36 h40 h43]
      rfl
    · intro hl0 h5
      rw [hdt, decode_error_noLib env t _ hl0 h5]
      rfl

/-- A trivial environment: no GPU decoder library, every external call
raising. -/
def envTrivial : DecodeEnv :=
  ⟨false, fun _ _ => .error (), fun _ _ _ => .error (), fun _ _ _ => .error (),
   fun _ _ _ _ _ => .error (), fun _ _ _ _ => .error ()⟩

/-- Witness for C10: the empty input is shorter than 40 bytes, so
`decode_texture` returns `none`. -/
theorem C10_decode_texture_total_witness :
    decode_texture envTrivial [] 0 = none :=
  (C10_decode_texture_total envTrivial [] 0).2.1 (by decide)

end DIAsset
